import Mathlib

set_option linter.unusedVariables false

/-!
Shallow embedding of the smartlock resource-allocation-graph (RAG) engine
from src/klock.c, together with proofs about its operations.

Modelling conventions:
* The two node lists `threads` / `resources` embed the C linked lists; list
  positions stand for node addresses, so the pointer-valued edge fields
  (`request`, `assignment`) become `Option Nat` indices into the other list
  (`none` embeds the NULL pointer).
* Fallible pointer dereferences are embedded with `Option`: a C call that
  would dereference the NULL result of a failed lookup returns `none`.
* The recursive depth-first search carries a fuel argument; the caller
  supplies `threads.length + 1`, which is shown sufficient where it matters.
-/

/-- A process node in the RAG (struct thread_t): thread id, request edge
(index into the resource list, `none` for NULL), and the transient
travelled marker.  The `next` field of the C struct is the list structure. -/
structure ThreadNode where
  tid : Nat
  request : Option Nat
  travelled : Bool
deriving DecidableEq

/-- A resource node in the RAG (struct resource_t): associated lock address,
assignment edge (index into the thread list, `none` for NULL), and the
transient travelled marker. -/
structure ResourceNode where
  lockId : Nat
  assignment : Option Nat
  travelled : Bool
deriving DecidableEq

/-- The resource allocation graph: the process-wide `threads` and
`resources` lists of klock.c. -/
structure RAG where
  threads : List ThreadNode
  resources : List ResourceNode
deriving DecidableEq

/-- A list scan returning the first element satisfying `p` together with its
position: the pointer walk shared by rag_getThread and rag_getResource,
with positions standing for node addresses. -/
def lookupIdx (p : α → Bool) : List α → Option (Nat × α)
  | [] => none
  | x :: xs => if p x then some (0, x) else Option.map (fun q => (q.1 + 1, q.2)) (lookupIdx p xs)

/-- rag_getThread: scan the thread list for the node with the given tid. -/
def rag_getThread (g : RAG) (tid : Nat) : Option (Nat × ThreadNode) :=
  lookupIdx (fun n => n.tid == tid) g.threads

/-- rag_getResource: scan the resource list for the node of the given lock. -/
def rag_getResource (g : RAG) (lock : Nat) : Option (Nat × ResourceNode) :=
  lookupIdx (fun n => n.lockId == lock) g.resources

/-- rag_createResource followed by the append loop of rag_addResource:
a fresh node (no assignment edge, travelled false) is appended to the end
of the resource list and its lock field is set. -/
def rag_addResource (lock : Nat) (g : RAG) : RAG :=
  ⟨g.threads, g.resources ++ [⟨lock, none, false⟩]⟩

/-- rag_createThread followed by the append loop of rag_addThread. -/
def rag_addThread (tid : Nat) (g : RAG) : RAG :=
  ⟨g.threads ++ [⟨tid, none, false⟩], g.resources⟩

/-- The scan loop of rag_isNewThread. -/
def noMatchScan (tid : Nat) : List ThreadNode → Bool
  | [] => true
  | n :: rest => if n.tid == tid then false else noMatchScan tid rest

/-- rag_isNewThread: true when no thread node carries the given tid. -/
def rag_isNewThread (tid : Nat) (g : RAG) : Bool := noMatchScan tid g.threads

/-- rag_setRequest: look up the thread and the resource, then store the
resource pointer (possibly NULL) in the thread's request field.  The C code
dereferences the thread lookup unconditionally, so a missing thread node is
the crash case `none`. -/
def rag_setRequest (tid lock : Nat) (g : RAG) : Option RAG :=
  match rag_getThread g tid with
  | none => none
  | some (ti, tn) =>
      some ⟨g.threads.set ti ⟨tn.tid, Option.map (fun q => q.1) (rag_getResource g lock), tn.travelled⟩,
            g.resources⟩

/-- rag_setAssignment: look up both nodes, then store the thread pointer
(possibly NULL) in the resource's assignment field.  The C code dereferences
the resource lookup unconditionally, so a missing resource node is the crash
case `none`. -/
def rag_setAssignment (tid lock : Nat) (g : RAG) : Option RAG :=
  match rag_getResource g lock with
  | none => none
  | some (ri, rn) =>
      some ⟨g.threads,
            g.resources.set ri ⟨rn.lockId, Option.map (fun q => q.1) (rag_getThread g tid), rn.travelled⟩⟩

/-- rag_removeRequest: clear the request field of the thread node with the
given tid; dereferences the lookup result unconditionally. -/
def rag_removeRequest (tid : Nat) (g : RAG) : Option RAG :=
  match rag_getThread g tid with
  | none => none
  | some (ti, tn) => some ⟨g.threads.set ti ⟨tn.tid, none, tn.travelled⟩, g.resources⟩

/-- rag_removeAssignment: clear the assignment field of the resource node of
the given lock; dereferences the lookup result unconditionally. -/
def rag_removeAssignment (lock : Nat) (g : RAG) : Option RAG :=
  match rag_getResource g lock with
  | none => none
  | some (ri, rn) => some ⟨g.threads, g.resources.set ri ⟨rn.lockId, none, rn.travelled⟩⟩

/-- rag_depthFirstSearch: the recursive alternating walk of klock.c, marking
travelled flags in the graph as it goes.  `cur` is the current thread node
pointer (`none` for NULL); `fuel` bounds the recursion depth (the C
recursion needs no bound because every recursive call marks one more thread
node; callers pass `threads.length + 1`, which is shown sufficient below). -/
def rag_depthFirstSearch (g : RAG) (cur : Option Nat) (fuel : Nat) : Bool × RAG :=
  match fuel, cur with
  | 0, _ => (true, g)
  | _ + 1, none => (false, g)
  | fuel + 1, some i =>
    match g.threads.get? i with
    | none => (false, g)
    | some tn =>
      if tn.travelled then (true, g)
      else
        match tn.request with
        | none => (false, ⟨g.threads.set i ⟨tn.tid, tn.request, true⟩, g.resources⟩)
        | some r =>
          match g.resources.get? r with
          | none => (false, ⟨g.threads.set i ⟨tn.tid, tn.request, true⟩, g.resources⟩)
          | some rn =>
            if rn.travelled then (true, ⟨g.threads.set i ⟨tn.tid, tn.request, true⟩, g.resources⟩)
            else
              rag_depthFirstSearch
                ⟨g.threads.set i ⟨tn.tid, tn.request, true⟩,
                 g.resources.set r ⟨rn.lockId, rn.assignment, true⟩⟩
                rn.assignment fuel

/-- The two reset loops at the end of rag_checkForCycles: every travelled
marker in the graph is set back to false. -/
def clearTravelled (g : RAG) : RAG :=
  ⟨g.threads.map (fun n => ⟨n.tid, n.request, false⟩),
   g.resources.map (fun n => ⟨n.lockId, n.assignment, false⟩)⟩

/-- rag_checkForCycles: run the depth-first search from the node of the
given tid, then reset every travelled marker. -/
def rag_checkForCycles (tid : Nat) (g : RAG) : Bool × RAG :=
  let start := Option.map (fun q => q.1) (rag_getThread g tid)
  let res := rag_depthFirstSearch g start (g.threads.length + 1)
  (res.1, clearTravelled res.2)

/-- All travelled markers of the graph are false. -/
def cleanTravelled (g : RAG) : Bool :=
  g.threads.all (fun n => !n.travelled) && g.resources.all (fun n => !n.travelled)

theorem clean_clear (g : RAG) : cleanTravelled (clearTravelled g) = true := by
  simp [cleanTravelled, clearTravelled, List.all_eq_true]

/-- Claim C6: immediately after every call to rag_checkForCycles returns —
whether or not a cycle was found — the travelled marker of every thread node
and every resource node in the graph is false. -/
theorem C6_travelled_reset (tid : Nat) (g : RAG) :
    cleanTravelled (rag_checkForCycles tid g).2 = true :=
  clean_clear _

/-!
The graph-synchronization semaphores of klock.c: `assign_mutex` protects the
reader count `assign_readers`, and `assign_mutexRw` is the writer-admission
gate claimed by the first arriving reader and released by the last departing
reader.  Semaphore values are natural numbers; a wait on a zero semaphore
blocks, embedded as `none`; the reader count is a C int, embedded as `Int`.
Each routine below is the corresponding C routine run in isolation (one
atomic interleaving step).
-/

structure RWState where
  mutex : Nat
  mutexRw : Nat
  readers : Int
deriving DecidableEq

/-- sem_wait: blocks (`none`) on a zero semaphore, else decrements. -/
def semWait (s : Nat) : Option Nat := if s = 0 then none else some (s - 1)

/-- The state right after init_lock's first-run sem_init calls:
assign_mutex = 1, assign_mutexRw = 1, assign_readers = 0. -/
def rwInit : RWState := ⟨1, 1, 0⟩

/-- rag_readerWait: wait on assign_mutex, increment the reader count, claim
the writer-admission gate on the 0 to 1 transition, post assign_mutex. -/
def rag_readerWait (s : RWState) : Option RWState :=
  match semWait s.mutex with
  | none => none
  | some m =>
    let readers := s.readers + 1
    match (if readers = 1 then semWait s.mutexRw else some s.mutexRw) with
    | none => none
    | some rw => some ⟨m + 1, rw, readers⟩

/-- rag_readerSignal: wait on assign_mutex, decrement the reader count,
release the writer-admission gate on the 1 to 0 transition, post
assign_mutex. -/
def rag_readerSignal (s : RWState) : Option RWState :=
  match semWait s.mutex with
  | none => none
  | some m =>
    let readers := s.readers - 1
    let rw := if readers = 0 then s.mutexRw + 1 else s.mutexRw
    some ⟨m + 1, rw, readers⟩

/-- rag_writerWait: as written in klock.c this waits on assign_mutex (the
reader-count mutex), not on the writer-admission gate assign_mutexRw. -/
def rag_writerWait (s : RWState) : Option RWState :=
  match semWait s.mutex with
  | none => none
  | some m => some ⟨m, s.mutexRw, s.readers⟩

/-- rag_writerSignal: posts assign_mutex. -/
def rag_writerSignal (s : RWState) : RWState := ⟨s.mutex + 1, s.mutexRw, s.readers⟩

/-- Claim C3 (code evaluation at the failing input): from the initial
semaphore state, one thread completes rag_readerWait (claiming the
writer-admission gate, readers = 1), after which another thread's
rag_writerWait nevertheless completes: the writer is admitted while a reader
is active, and rag_writerWait leaves the writer-admission gate untouched
(it waits on assign_mutex instead of assign_mutexRw). -/
theorem C3_writer_admitted_while_reader_active :
    ∃ s1 s2, rag_readerWait rwInit = some s1 ∧ rag_writerWait s1 = some s2 ∧
      s1.mutexRw = 0 ∧ s2.mutexRw = 0 ∧ s2.readers = 1 ∧ s2.mutexRw = s1.mutexRw := by
  exact ⟨⟨1, 0, 1⟩, ⟨0, 0, 1⟩, rfl, rfl, rfl, rfl, rfl, rfl⟩

/-! List toolkit: positional lemmas about `get?`, `set`, `++`, `map`, and the
`lookupIdx` scan, proved from first principles. -/

theorem get?_set_self : ∀ (l : List α) (i : Nat) (a b : α),
    l.get? i = some b → (l.set i a).get? i = some a
  | [], _, _, _, h => nomatch h
  | _ :: _, 0, _, _, _ => rfl
  | _ :: xs, i + 1, a, b, h => get?_set_self xs i a b h

theorem get?_set_ne : ∀ (l : List α) (i j : Nat) (a : α),
    i ≠ j → (l.set i a).get? j = l.get? j
  | [], _, _, _, _ => rfl
  | _ :: _, 0, 0, _, h => absurd rfl h
  | _ :: _, 0, _ + 1, _, _ => rfl
  | _ :: _, _ + 1, 0, _, _ => rfl
  | _ :: xs, i + 1, j + 1, a, h =>
      get?_set_ne xs i j a (fun e => h (by rw [e]))

theorem get?_some_lt : ∀ {l : List α} {i : Nat} {a : α},
    l.get? i = some a → i < l.length
  | [], _, _, h => nomatch h
  | _ :: _, 0, _, _ => Nat.succ_pos _
  | _ :: xs, i + 1, a, h => Nat.succ_lt_succ (get?_some_lt (l := xs) h)

theorem get?_append_lt : ∀ (l : List α) (y : α) (i : Nat),
    i < l.length → (l ++ [y]).get? i = l.get? i
  | [], _, i, h => absurd h (Nat.not_lt_zero i)
  | _ :: _, _, 0, _ => rfl
  | _ :: xs, y, i + 1, h => get?_append_lt xs y i (Nat.lt_of_succ_lt_succ h)

theorem get?_append_len : ∀ (l : List α) (y : α), (l ++ [y]).get? l.length = some y
  | [], _ => rfl
  | _ :: xs, y => get?_append_len xs y

theorem get?_map' (f : α → β) : ∀ (l : List α) (i : Nat),
    (l.map f).get? i = Option.map f (l.get? i)
  | [], _ => rfl
  | _ :: _, 0 => rfl
  | _ :: xs, i + 1 => get?_map' f xs i

theorem set_map_same (f : α → β) : ∀ (l : List α) (i : Nat) (a b : α),
    l.get? i = some a → f b = f a → (l.set i b).map f = l.map f
  | [], _, _, _, h, _ => nomatch h
  | x :: xs, 0, a, b, h, hf => by
      have hx : x = a := Option.some.inj h
      simp [List.set, List.map, hf, hx]
  | x :: xs, i + 1, a, b, h, hf => by
      simp only [List.set, List.map, List.cons.injEq, true_and]
      exact set_map_same f xs i a b h hf

theorem lookupIdx_get? {p : α → Bool} {l : List α} :
    ∀ {i : Nat} {x : α}, lookupIdx p l = some (i, x) → l.get? i = some x ∧ p x = true := by
  induction l with
  | nil => intro i x h; exact nomatch h
  | cons a as ih =>
    intro i x h
    simp only [lookupIdx] at h
    by_cases hp : p a = true
    · rw [if_pos hp] at h
      cases h
      exact ⟨rfl, hp⟩
    · rw [if_neg hp] at h
      cases hq : lookupIdx p as with
      | none => rw [hq] at h; exact nomatch h
      | some q =>
        rw [hq] at h
        simp only [Option.map_some'] at h
        cases h
        exact ⟨(ih (i := q.1) (x := q.2) hq).1, (ih (i := q.1) (x := q.2) hq).2⟩

theorem lookupIdx_set {p : α → Bool} {l : List α} :
    ∀ {i : Nat} {x : α} (y : α), lookupIdx p l = some (i, x) → p y = true →
      lookupIdx p (l.set i y) = some (i, y) := by
  induction l with
  | nil => intro i x y h _; exact nomatch h
  | cons a as ih =>
    intro i x y h hy
    simp only [lookupIdx] at h
    by_cases hp : p a = true
    · rw [if_pos hp] at h
      cases h
      simp [List.set, lookupIdx, hy]
    · rw [if_neg hp] at h
      cases hq : lookupIdx p as with
      | none => rw [hq] at h; exact nomatch h
      | some q =>
        rw [hq] at h
        simp only [Option.map_some'] at h
        cases h
        simp only [List.set, lookupIdx, if_neg hp]
        rw [ih (i := q.1) (x := q.2) y hq hy]
        rfl

theorem lookupIdx_append_none {p : α → Bool} {l : List α} (y : α) :
    lookupIdx p l = none → p y = true → lookupIdx p (l ++ [y]) = some (l.length, y) := by
  induction l with
  | nil => intro _ hy; simp [lookupIdx, hy]
  | cons a as ih =>
    intro h hy
    simp only [lookupIdx] at h
    by_cases hp : p a = true
    · rw [if_pos hp] at h; exact nomatch h
    · rw [if_neg hp] at h
      have htail : lookupIdx p as = none := by
        cases hq : lookupIdx p as with
        | none => rfl
        | some q => rw [hq] at h; exact nomatch h
      show lookupIdx p (a :: (as ++ [y])) = some (as.length + 1, y)
      simp only [lookupIdx, if_neg hp]
      rw [ih htail hy]
      rfl

theorem lookupIdx_none_iff {p : α → Bool} {l : List α} :
    lookupIdx p l = none ↔ ∀ x ∈ l, p x = false := by
  induction l with
  | nil => simp [lookupIdx]
  | cons a as ih =>
    by_cases hp : p a = true
    · simp [lookupIdx, hp]
    · simp only [lookupIdx, if_neg hp, Option.map_eq_none', List.mem_cons]
      constructor
      · intro h x hx
        rcases hx with hx | hx
        · rw [hx]; exact Bool.not_eq_true _ ▸ Bool.of_not_eq_true hp
        · exact ih.mp h x hx
      · intro h
        exact ih.mpr (fun x hx => h x (Or.inr hx))

/-! Projections that forget the transient travelled marker, used to state
that an operation leaves the persistent part of a node list unchanged. -/

/-- The persistent part of a thread node: tid and request edge. -/
def treq (n : ThreadNode) : Nat × Option Nat := (n.tid, n.request)

/-- The persistent part of a resource node: lock id and assignment edge. -/
def rasg (n : ResourceNode) : Nat × Option Nat := (n.lockId, n.assignment)

theorem dfs_preserves_maps : ∀ (fuel : Nat) (g : RAG) (cur : Option Nat),
    ((rag_depthFirstSearch g cur fuel).2).threads.map treq = g.threads.map treq ∧
    ((rag_depthFirstSearch g cur fuel).2).resources.map rasg = g.resources.map rasg := by
  intro fuel
  induction fuel with
  | zero => intro g cur; exact ⟨rfl, rfl⟩
  | succ fuel ih =>
    intro g cur
    cases cur with
    | none => exact ⟨rfl, rfl⟩
    | some i =>
      simp only [rag_depthFirstSearch]
      split
      next => exact ⟨rfl, rfl⟩
      next tn hg =>
        split
        next => exact ⟨rfl, rfl⟩
        next ht =>
          have hset1 : (g.threads.set i ⟨tn.tid, tn.request, true⟩).map treq = g.threads.map treq :=
            set_map_same treq g.threads i tn ⟨tn.tid, tn.request, true⟩ hg rfl
          split
          next => exact ⟨hset1, rfl⟩
          next r hreq =>
            split
            next => exact ⟨hset1, rfl⟩
            next rn hr =>
              split
              next => exact ⟨hset1, rfl⟩
              next hrt =>
                have hset2 : (g.resources.set r ⟨rn.lockId, rn.assignment, true⟩).map rasg =
                    g.resources.map rasg :=
                  set_map_same rasg g.resources r rn ⟨rn.lockId, rn.assignment, true⟩ hr rfl
                have hrec := ih ⟨g.threads.set i ⟨tn.tid, tn.request, true⟩,
                    g.resources.set r ⟨rn.lockId, rn.assignment, true⟩⟩ rn.assignment
                exact ⟨hrec.1.trans hset1, hrec.2.trans hset2⟩

theorem clear_preserves_maps (g : RAG) :
    (clearTravelled g).threads.map treq = g.threads.map treq ∧
    (clearTravelled g).resources.map rasg = g.resources.map rasg := by
  constructor
  · show (g.threads.map (fun n => (⟨n.tid, n.request, false⟩ : ThreadNode))).map treq = _
    rw [List.map_map]
    rfl
  · show (g.resources.map (fun n => (⟨n.lockId, n.assignment, false⟩ : ResourceNode))).map rasg = _
    rw [List.map_map]
    rfl

theorem check_preserves_maps (tid : Nat) (g : RAG) :
    ((rag_checkForCycles tid g).2).threads.map treq = g.threads.map treq ∧
    ((rag_checkForCycles tid g).2).resources.map rasg = g.resources.map rasg := by
  have hd := dfs_preserves_maps (g.threads.length + 1) g
      (Option.map (fun q => q.1) (rag_getThread g tid))
  have hc := clear_preserves_maps
      (rag_depthFirstSearch g (Option.map (fun q => q.1) (rag_getThread g tid))
        (g.threads.length + 1)).2
  exact ⟨hc.1.trans hd.1, hc.2.trans hd.2⟩

/-- Lookup of a thread by tid only depends on the `treq` projection of the
thread list; the result is related index-by-index. -/
theorem lookupT_congr : ∀ {l l' : List ThreadNode}, l.map treq = l'.map treq → ∀ (tid : Nat),
    Option.map (fun r => (r.1, treq r.2)) (lookupIdx (fun n => n.tid == tid) l) =
    Option.map (fun r => (r.1, treq r.2)) (lookupIdx (fun n => n.tid == tid) l') := by
  intro l
  induction l with
  | nil =>
    intro l' h tid
    cases l' with
    | nil => rfl
    | cons b bs => exact nomatch h
  | cons a as ih =>
    intro l' h tid
    cases l' with
    | nil => exact nomatch h
    | cons b bs =>
      simp only [List.map, List.cons.injEq] at h
      have hab : a.tid = b.tid := congrArg Prod.fst h.1
      simp only [lookupIdx, hab]
      by_cases hp : (b.tid == tid) = true
      · rw [if_pos hp, if_pos hp]
        simp only [Option.map_some']
        exact congrArg _ (congrArg _ h.1)
      · rw [if_neg hp, if_neg hp]
        have hrec := ih h.2 tid
        cases hla : lookupIdx (fun n => n.tid == tid) as with
        | none =>
          cases hlb : lookupIdx (fun n => n.tid == tid) bs with
          | none => rfl
          | some qb => rw [hla, hlb] at hrec; exact nomatch hrec
        | some qa =>
          cases hlb : lookupIdx (fun n => n.tid == tid) bs with
          | none => rw [hla, hlb] at hrec; exact nomatch hrec
          | some qb =>
            rw [hla, hlb] at hrec
            simp only [Option.map_some'] at hrec ⊢
            have hin : (qa.1, treq qa.2) = (qb.1, treq qb.2) := Option.some.inj hrec
            simp only [Prod.mk.injEq] at hin
            simp [hin.1, hin.2]

/-- Lookup of a resource by lock id only depends on the `rasg` projection of
the resource list. -/
theorem lookupR_congr : ∀ {l l' : List ResourceNode}, l.map rasg = l'.map rasg → ∀ (lock : Nat),
    Option.map (fun r => (r.1, rasg r.2)) (lookupIdx (fun n => n.lockId == lock) l) =
    Option.map (fun r => (r.1, rasg r.2)) (lookupIdx (fun n => n.lockId == lock) l') := by
  intro l
  induction l with
  | nil =>
    intro l' h lock
    cases l' with
    | nil => rfl
    | cons b bs => exact nomatch h
  | cons a as ih =>
    intro l' h lock
    cases l' with
    | nil => exact nomatch h
    | cons b bs =>
      simp only [List.map, List.cons.injEq] at h
      have hab : a.lockId = b.lockId := congrArg Prod.fst h.1
      simp only [lookupIdx, hab]
      by_cases hp : (b.lockId == lock) = true
      · rw [if_pos hp, if_pos hp]
        simp only [Option.map_some']
        exact congrArg _ (congrArg _ h.1)
      · rw [if_neg hp, if_neg hp]
        have hrec := ih h.2 lock
        cases hla : lookupIdx (fun n => n.lockId == lock) as with
        | none =>
          cases hlb : lookupIdx (fun n => n.lockId == lock) bs with
          | none => rfl
          | some qb => rw [hla, hlb] at hrec; exact nomatch hrec
        | some qa =>
          cases hlb : lookupIdx (fun n => n.lockId == lock) bs with
          | none => rw [hla, hlb] at hrec; exact nomatch hrec
          | some qb =>
            rw [hla, hlb] at hrec
            simp only [Option.map_some'] at hrec ⊢
            have hin : (qa.1, rasg qa.2) = (qb.1, rasg qb.2) := Option.some.inj hrec
            simp only [Prod.mk.injEq] at hin
            simp [hin.1, hin.2]

theorem noMatchScan_iff (tid : Nat) : ∀ (l : List ThreadNode),
    noMatchScan tid l = true ↔ lookupIdx (fun n => n.tid == tid) l = none := by
  intro l
  induction l with
  | nil => simp [noMatchScan, lookupIdx]
  | cons a as ih =>
    by_cases hp : (a.tid == tid) = true
    · simp [noMatchScan, lookupIdx, hp]
    · simp only [noMatchScan, lookupIdx]
      rw [if_neg hp, if_neg hp, Option.map_eq_none']
      exact ih

/-- Events recording the externally meaningful steps of lock() and unlock():
graph-store calls, the cycle check, and the operations on the lock's own
pthread mutex (evMutexWait is the blocking pthread_mutex_lock call). -/
inductive Ev
  | evAddThread
  | evSetRequest
  | evCheckCycles
  | evSetAssignment
  | evMutexWait
  | evRemoveRequest
  | evRemoveAssignment
  | evMutexUnlock
deriving DecidableEq

/-- The thread-registration prefix of lock(): rag_isNewThread / rag_addThread. -/
def ensureThread (tid : Nat) (g : RAG) : RAG :=
  if rag_isNewThread tid g then rag_addThread tid g else g

/-- The ordered events of a rejected lock() call: the request edge is set,
the cycle check runs, the request edge is cleared; the pthread mutex is
never touched. -/
def rejectEvs (tid : Nat) (g : RAG) : List Ev :=
  (if rag_isNewThread tid g then [Ev.evAddThread] else []) ++
    [Ev.evSetRequest, Ev.evCheckCycles, Ev.evRemoveRequest]

/-- The ordered events of a granted lock() call: after the cycle check, the
assignment edge is set, then the blocking pthread_mutex_lock happens, then
the request edge is cleared. -/
def grantEvs (tid : Nat) (g : RAG) : List Ev :=
  (if rag_isNewThread tid g then [Ev.evAddThread] else []) ++
    [Ev.evSetRequest, Ev.evCheckCycles, Ev.evSetAssignment, Ev.evMutexWait, Ev.evRemoveRequest]

/-- lock(): the acquire operation of klock.c, as the sequential composition
of its graph operations.  Returns the int result (0 rejected, 1 granted),
the final graph, and the ordered list of events performed; `none` embeds a
crash (NULL dereference inside a graph helper). -/
def lock (tid lockId : Nat) (g : RAG) : Option (Int × RAG × List Ev) :=
  match rag_setRequest tid lockId (ensureThread tid g) with
  | none => none
  | some g1 =>
    if (rag_checkForCycles tid g1).1 then
      match rag_removeRequest tid (rag_checkForCycles tid g1).2 with
      | none => none
      | some g2 => some (0, g2, rejectEvs tid g)
    else
      match rag_setAssignment tid lockId (rag_checkForCycles tid g1).2 with
      | none => none
      | some g3 =>
        match rag_removeRequest tid g3 with
        | none => none
        | some g4 => some (1, g4, grantEvs tid g)

/-- unlock(): clears the resource's assignment edge, then posts the lock's
pthread mutex. -/
def unlock (lockId : Nat) (g : RAG) : Option (RAG × List Ev) :=
  match rag_removeAssignment lockId g with
  | none => none
  | some g1 => some (g1, [Ev.evRemoveAssignment, Ev.evMutexUnlock])

theorem map_proj_inv {α β : Type} {x : Option (Nat × α)} {f : α → β} {i : Nat} {v : β}
    (h : Option.map (fun r => (r.1, f r.2)) x = some (i, v)) :
    ∃ y, x = some (i, y) ∧ f y = v := by
  cases x with
  | none => exact nomatch h
  | some q =>
    simp only [Option.map_some'] at h
    have hin : (q.1, f q.2) = (i, v) := Option.some.inj h
    simp only [Prod.mk.injEq] at hin
    exact ⟨q.2, by rw [← hin.1], hin.2⟩

theorem ensure_resources (tid : Nat) (g : RAG) :
    (ensureThread tid g).resources = g.resources := by
  unfold ensureThread
  split <;> rfl

theorem getThread_ensure (tid : Nat) (g : RAG) :
    ∃ ti tn, rag_getThread (ensureThread tid g) tid = some (ti, tn) ∧ tn.tid = tid := by
  unfold ensureThread
  by_cases hnew : rag_isNewThread tid g = true
  · rw [if_pos hnew]
    have hnone : lookupIdx (fun n => n.tid == tid) g.threads = none :=
      (noMatchScan_iff tid g.threads).mp hnew
    have happ := lookupIdx_append_none (p := fun n => n.tid == tid) (l := g.threads)
      ⟨tid, none, false⟩ hnone (by simp)
    exact ⟨g.threads.length, ⟨tid, none, false⟩, happ, rfl⟩
  · rw [if_neg hnew]
    cases hq : rag_getThread g tid with
    | none => exact absurd ((noMatchScan_iff tid g.threads).mpr hq) hnew
    | some q =>
      have hq' : lookupIdx (fun n => n.tid == tid) g.threads = some (q.1, q.2) := hq
      have h2 := lookupIdx_get? (p := fun n => n.tid == tid) (l := g.threads)
        (i := q.1) (x := q.2) hq'
      have hb : (q.2.tid == tid) = true := h2.2
      exact ⟨q.1, q.2, rfl, eq_of_beq hb⟩

theorem setRequest_eq {tid : Nat} (lockId : Nat) {g : RAG} {ti : Nat} {tn : ThreadNode}
    (h : rag_getThread g tid = some (ti, tn)) :
    rag_setRequest tid lockId g =
      some ⟨g.threads.set ti
              ⟨tn.tid, Option.map (fun q => q.1) (rag_getResource g lockId), tn.travelled⟩,
            g.resources⟩ := by
  simp only [rag_setRequest, h]

theorem removeRequest_eq {tid : Nat} {g : RAG} {ti : Nat} {tn : ThreadNode}
    (h : rag_getThread g tid = some (ti, tn)) :
    rag_removeRequest tid g = some ⟨g.threads.set ti ⟨tn.tid, none, tn.travelled⟩, g.resources⟩ := by
  simp only [rag_removeRequest, h]

theorem setAssignment_eq {tid : Nat} (lockId : Nat) {g : RAG} {ri : Nat} {rn : ResourceNode}
    (h : rag_getResource g lockId = some (ri, rn)) :
    rag_setAssignment tid lockId g =
      some ⟨g.threads,
            g.resources.set ri
              ⟨rn.lockId, Option.map (fun q => q.1) (rag_getThread g tid), rn.travelled⟩⟩ := by
  simp only [rag_setAssignment, h]

theorem removeAssignment_eq {lockId : Nat} {g : RAG} {ri : Nat} {rn : ResourceNode}
    (h : rag_getResource g lockId = some (ri, rn)) :
    rag_removeAssignment lockId g =
      some ⟨g.threads, g.resources.set ri ⟨rn.lockId, none, rn.travelled⟩⟩ := by
  simp only [rag_removeAssignment, h]

theorem getThread_of_map_eq {g g' : RAG} (h : g'.threads.map treq = g.threads.map treq)
    {tid ti : Nat} {tn : ThreadNode} (hl : rag_getThread g tid = some (ti, tn)) :
    ∃ tn', rag_getThread g' tid = some (ti, tn') ∧ tn'.tid = tn.tid ∧ tn'.request = tn.request := by
  have hc := lookupT_congr h tid
  rw [show lookupIdx (fun n => n.tid == tid) g.threads = rag_getThread g tid from rfl, hl] at hc
  rw [show lookupIdx (fun n => n.tid == tid) g'.threads = rag_getThread g' tid from rfl] at hc
  simp only [Option.map_some'] at hc
  obtain ⟨y, hy, hproj⟩ := map_proj_inv hc
  simp only [treq, Prod.mk.injEq] at hproj
  exact ⟨y, hy, hproj.1, hproj.2⟩

theorem getResource_of_map_eq {g g' : RAG} (h : g'.resources.map rasg = g.resources.map rasg)
    {lockId ri : Nat} {rn : ResourceNode} (hl : rag_getResource g lockId = some (ri, rn)) :
    ∃ rn', rag_getResource g' lockId = some (ri, rn') ∧ rn'.lockId = rn.lockId ∧
      rn'.assignment = rn.assignment := by
  have hc := lookupR_congr h lockId
  rw [show lookupIdx (fun n => n.lockId == lockId) g.resources = rag_getResource g lockId from rfl,
      hl] at hc
  rw [show lookupIdx (fun n => n.lockId == lockId) g'.resources = rag_getResource g' lockId
      from rfl] at hc
  simp only [Option.map_some'] at hc
  obtain ⟨y, hy, hproj⟩ := map_proj_inv hc
  simp only [rasg, Prod.mk.injEq] at hproj
  exact ⟨y, hy, hproj.1, hproj.2⟩

theorem setRequest_resources {tid lockId : Nat} {g g1 : RAG}
    (h : rag_setRequest tid lockId g = some g1) : g1.resources = g.resources := by
  cases hq : rag_getThread g tid with
  | none =>
    simp only [rag_setRequest, hq] at h
    exact nomatch h
  | some q =>
    obtain ⟨ti, tn⟩ := q
    simp only [rag_setRequest, hq] at h
    cases h
    rfl

/-- Running lock() when the cycle check reports a cycle: the request edge is
cleared, the graph's resource list is left as the check left it, and the
result is the rejection 0 with the reject event trace. -/
theorem lock_reject_run (tid lockId : Nat) (g g1 : RAG)
    (h1 : rag_setRequest tid lockId (ensureThread tid g) = some g1)
    (hcyc : (rag_checkForCycles tid g1).1 = true) :
    ∃ ti tn2, rag_getThread (rag_checkForCycles tid g1).2 tid = some (ti, tn2) ∧ tn2.tid = tid ∧
      lock tid lockId g =
        some (0,
          ⟨((rag_checkForCycles tid g1).2.threads).set ti ⟨tn2.tid, none, tn2.travelled⟩,
           (rag_checkForCycles tid g1).2.resources⟩,
          rejectEvs tid g) := by
  obtain ⟨ti, tn, hT, htid⟩ := getThread_ensure tid g
  have hlit := setRequest_eq lockId hT
  have hg1 := Option.some.inj (h1.symm.trans hlit)
  subst hg1
  have hT' : lookupIdx (fun n => n.tid == tid) (ensureThread tid g).threads = some (ti, tn) := hT
  have hT1 : rag_getThread
      (⟨(ensureThread tid g).threads.set ti
          ⟨tn.tid, Option.map (fun q => q.1) (rag_getResource (ensureThread tid g) lockId),
           tn.travelled⟩,
        (ensureThread tid g).resources⟩ : RAG) tid =
      some (ti, ⟨tn.tid, Option.map (fun q => q.1) (rag_getResource (ensureThread tid g) lockId),
        tn.travelled⟩) :=
    lookupIdx_set _ hT' (by simp [htid])
  have hm := check_preserves_maps tid
      ⟨(ensureThread tid g).threads.set ti
          ⟨tn.tid, Option.map (fun q => q.1) (rag_getResource (ensureThread tid g) lockId),
           tn.travelled⟩,
        (ensureThread tid g).resources⟩
  obtain ⟨tn2, hT2, htid2, hreq2⟩ := getThread_of_map_eq hm.1 hT1
  have htid2' : tn2.tid = tid := htid2.trans htid
  have hrr := removeRequest_eq hT2
  refine ⟨ti, tn2, hT2, htid2', ?_⟩
  simp only [lock, h1, hcyc, if_true, hrr]

theorem lock_post_check_grant (tid lockId : Nat) (c2 : RAG) (ti ri : Nat)
    (tn2 : ThreadNode) (rn2 : ResourceNode)
    (hT2 : rag_getThread c2 tid = some (ti, tn2))
    (hR2 : rag_getResource c2 lockId = some (ri, rn2)) :
    rag_setAssignment tid lockId c2 =
      some ⟨c2.threads, c2.resources.set ri ⟨rn2.lockId, some ti, rn2.travelled⟩⟩ ∧
    rag_removeRequest tid
        (⟨c2.threads, c2.resources.set ri ⟨rn2.lockId, some ti, rn2.travelled⟩⟩ : RAG) =
      some ⟨c2.threads.set ti ⟨tn2.tid, none, tn2.travelled⟩,
            c2.resources.set ri ⟨rn2.lockId, some ti, rn2.travelled⟩⟩ := by
  have hsa := @setAssignment_eq tid lockId c2 ri rn2 hR2
  rw [hT2] at hsa
  simp only [Option.map_some'] at hsa
  have hT3 : rag_getThread
      (⟨c2.threads, c2.resources.set ri ⟨rn2.lockId, some ti, rn2.travelled⟩⟩ : RAG) tid =
      some (ti, tn2) := hT2
  have hrr := removeRequest_eq hT3
  exact ⟨hsa, hrr⟩

/-- Running lock() when the cycle check reports no cycle and the resource is
registered: the assignment edge is set to the calling thread's node, the
blocking mutex wait happens, the request edge is cleared, and the result is
the grant 1 with the grant event trace. -/
theorem lock_grant_run (tid lockId : Nat) (g g1 : RAG) (ri : Nat) (rn : ResourceNode)
    (h1 : rag_setRequest tid lockId (ensureThread tid g) = some g1)
    (hcyc : (rag_checkForCycles tid g1).1 = false)
    (hres : rag_getResource g lockId = some (ri, rn)) :
    ∃ ti tn2 rn2,
      rag_getThread (rag_checkForCycles tid g1).2 tid = some (ti, tn2) ∧ tn2.tid = tid ∧
      rag_getResource (rag_checkForCycles tid g1).2 lockId = some (ri, rn2) ∧
      rn2.lockId = rn.lockId ∧ rn2.assignment = rn.assignment ∧
      lock tid lockId g =
        some (1,
          ⟨((rag_checkForCycles tid g1).2.threads).set ti ⟨tn2.tid, none, tn2.travelled⟩,
           ((rag_checkForCycles tid g1).2.resources).set ri ⟨rn2.lockId, some ti, rn2.travelled⟩⟩,
          grantEvs tid g) := by
  obtain ⟨ti, tn, hT, htid⟩ := getThread_ensure tid g
  have hlit := setRequest_eq lockId hT
  have hg1 := Option.some.inj (h1.symm.trans hlit)
  subst hg1
  have hres0 : rag_getResource (ensureThread tid g) lockId = some (ri, rn) := by
    unfold rag_getResource
    rw [ensure_resources]
    exact hres
  have hT' : lookupIdx (fun n => n.tid == tid) (ensureThread tid g).threads = some (ti, tn) := hT
  have hT1 : rag_getThread
      (⟨(ensureThread tid g).threads.set ti
          ⟨tn.tid, Option.map (fun q => q.1) (rag_getResource (ensureThread tid g) lockId),
           tn.travelled⟩,
        (ensureThread tid g).resources⟩ : RAG) tid =
      some (ti, ⟨tn.tid, Option.map (fun q => q.1) (rag_getResource (ensureThread tid g) lockId),
        tn.travelled⟩) :=
    lookupIdx_set _ hT' (by simp [htid])
  have hres1 : rag_getResource
      (⟨(ensureThread tid g).threads.set ti
          ⟨tn.tid, Option.map (fun q => q.1) (rag_getResource (ensureThread tid g) lockId),
           tn.travelled⟩,
        (ensureThread tid g).resources⟩ : RAG) lockId = some (ri, rn) := hres0
  have hm := check_preserves_maps tid
      ⟨(ensureThread tid g).threads.set ti
          ⟨tn.tid, Option.map (fun q => q.1) (rag_getResource (ensureThread tid g) lockId),
           tn.travelled⟩,
        (ensureThread tid g).resources⟩
  obtain ⟨tn2, hT2, htid2, hreq2⟩ := getThread_of_map_eq hm.1 hT1
  obtain ⟨rn2, hR2, hlid2, hasg2⟩ := getResource_of_map_eq hm.2 hres1
  have htid2' : tn2.tid = tid := htid2.trans htid
  obtain ⟨hsa, hrr⟩ := lock_post_check_grant tid lockId _ ti ri tn2 rn2 hT2 hR2
  refine ⟨ti, tn2, rn2, hT2, htid2', hR2, hlid2, hasg2, ?_⟩
  simp only [lock, h1, hcyc, Bool.false_eq_true, if_false, hsa, hrr]

/-- Claim C4: if the cycle check reports a cycle, lock() clears the calling
thread's request edge and returns the rejection result 0 synchronously; the
event trace contains no evMutexWait, so the caller is never suspended on the
resource's pthread mutex; afterwards the thread's request edge is gone, and
the lock id and assignment edge of every resource node — in particular of
the requested resource — are exactly as before the call, so no assignment
edge from that resource to that thread was added. -/
theorem C4_reject_path (tid lockId : Nat) (g g1 : RAG)
    (h1 : rag_setRequest tid lockId (ensureThread tid g) = some g1)
    (hcyc : (rag_checkForCycles tid g1).1 = true) :
    ∃ ti tn2,
      rag_getThread (rag_checkForCycles tid g1).2 tid = some (ti, tn2) ∧
      lock tid lockId g =
        some (0,
          ⟨((rag_checkForCycles tid g1).2.threads).set ti ⟨tn2.tid, none, tn2.travelled⟩,
           (rag_checkForCycles tid g1).2.resources⟩,
          rejectEvs tid g) ∧
      Ev.evMutexWait ∉ rejectEvs tid g ∧
      ((rag_checkForCycles tid g1).2.resources).map rasg = g.resources.map rasg ∧
      rag_getThread
        (⟨((rag_checkForCycles tid g1).2.threads).set ti ⟨tn2.tid, none, tn2.travelled⟩,
          (rag_checkForCycles tid g1).2.resources⟩ : RAG) tid =
        some (ti, ⟨tn2.tid, none, tn2.travelled⟩) := by
  obtain ⟨ti, tn2, hT2, htid2, hlock⟩ := lock_reject_run tid lockId g g1 h1 hcyc
  refine ⟨ti, tn2, hT2, hlock, ?_, ?_, ?_⟩
  · unfold rejectEvs
    split <;> decide
  · have hmap := (check_preserves_maps tid g1).2
    rw [hmap, setRequest_resources h1, ensure_resources]
  · have hT2' : lookupIdx (fun n => n.tid == tid) ((rag_checkForCycles tid g1).2.threads) =
        some (ti, tn2) := hT2
    exact lookupIdx_set _ hT2' (by simp [htid2])

/-- Claim C5: if the cycle check reports no cycle (and the resource is
registered), lock() performs, in this order: set the assignment edge from
the resource to the calling thread's node, the blocking wait on the
resource's pthread mutex, clear the calling thread's request edge — and
returns the granted result 1.  In the final graph the resource's assignment
edge points at the calling thread's node and the thread's request edge is
cleared. -/
theorem C5_grant_path (tid lockId : Nat) (g g1 : RAG) (ri : Nat) (rn : ResourceNode)
    (h1 : rag_setRequest tid lockId (ensureThread tid g) = some g1)
    (hcyc : (rag_checkForCycles tid g1).1 = false)
    (hres : rag_getResource g lockId = some (ri, rn)) :
    ∃ ti tn2 rn2,
      rag_getThread (rag_checkForCycles tid g1).2 tid = some (ti, tn2) ∧
      rag_getResource (rag_checkForCycles tid g1).2 lockId = some (ri, rn2) ∧
      lock tid lockId g =
        some (1,
          ⟨((rag_checkForCycles tid g1).2.threads).set ti ⟨tn2.tid, none, tn2.travelled⟩,
           ((rag_checkForCycles tid g1).2.resources).set ri ⟨rn2.lockId, some ti, rn2.travelled⟩⟩,
          grantEvs tid g) ∧
      grantEvs tid g = (if rag_isNewThread tid g then [Ev.evAddThread] else []) ++
        [Ev.evSetRequest, Ev.evCheckCycles, Ev.evSetAssignment, Ev.evMutexWait,
         Ev.evRemoveRequest] ∧
      rag_getResource
        (⟨((rag_checkForCycles tid g1).2.threads).set ti ⟨tn2.tid, none, tn2.travelled⟩,
          ((rag_checkForCycles tid g1).2.resources).set ri
            ⟨rn2.lockId, some ti, rn2.travelled⟩⟩ : RAG) lockId =
        some (ri, ⟨rn2.lockId, some ti, rn2.travelled⟩) ∧
      rag_getThread
        (⟨((rag_checkForCycles tid g1).2.threads).set ti ⟨tn2.tid, none, tn2.travelled⟩,
          ((rag_checkForCycles tid g1).2.resources).set ri
            ⟨rn2.lockId, some ti, rn2.travelled⟩⟩ : RAG) tid =
        some (ti, ⟨tn2.tid, none, tn2.travelled⟩) := by
  obtain ⟨ti, tn2, rn2, hT2, htid2, hR2, hlid2, hasg2, hlock⟩ :=
    lock_grant_run tid lockId g g1 ri rn h1 hcyc hres
  have hT2' : lookupIdx (fun n => n.tid == tid) ((rag_checkForCycles tid g1).2.threads) =
      some (ti, tn2) := hT2
  have hR2' : lookupIdx (fun n => n.lockId == lockId) ((rag_checkForCycles tid g1).2.resources) =
      some (ri, rn2) := hR2
  have hpredR : (rn2.lockId == lockId) = true := (lookupIdx_get? hR2').2
  refine ⟨ti, tn2, rn2, hT2, hR2, hlock, rfl, ?_, ?_⟩
  · exact lookupIdx_set _ hR2' (by exact hpredR)
  · exact lookupIdx_set _ hT2' (by simp [htid2])

/-- Claim C8: release clears the given resource's assignment edge and
releases its private exclusion primitive (the evMutexUnlock event), leaving
every other part of the graph — the thread list with all request edges, all
other resource nodes, and all travelled markers — unchanged. -/
theorem C8_release_frame (lockId : Nat) (g : RAG) (ri : Nat) (rn : ResourceNode)
    (h : rag_getResource g lockId = some (ri, rn)) :
    unlock lockId g =
      some (⟨g.threads, g.resources.set ri ⟨rn.lockId, none, rn.travelled⟩⟩,
            [Ev.evRemoveAssignment, Ev.evMutexUnlock]) ∧
    (∀ j, j ≠ ri →
      (g.resources.set ri ⟨rn.lockId, none, rn.travelled⟩).get? j = g.resources.get? j) ∧
    (g.resources.set ri ⟨rn.lockId, none, rn.travelled⟩).get? ri =
      some ⟨rn.lockId, none, rn.travelled⟩ := by
  refine ⟨?_, ?_, ?_⟩
  · simp only [unlock, removeAssignment_eq h]
  · intro j hj
    exact get?_set_ne _ ri j _ (fun e => hj e.symm)
  · have h' : lookupIdx (fun n => n.lockId == lockId) g.resources = some (ri, rn) := h
    have hg : g.resources.get? ri = some rn := (lookupIdx_get? h').1
    exact get?_set_self _ ri _ rn hg

/-- Claim C10: whenever a resource node for the given lock exists, the
lookups inside the edge operations used by acquire and release find their
nodes and every dereference is safe — lock() and unlock() cannot crash; for
a lock with no registered resource node, rag_setAssignment,
rag_removeAssignment and hence unlock() dereference the NULL lookup result
(the crash `none`) instead of returning an error value. -/
theorem C10_lookup_safety :
    (∀ g tid lockId, (rag_getResource g lockId).isSome = true →
        lock tid lockId g ≠ none ∧ unlock lockId g ≠ none) ∧
    (∀ g tid lockId, rag_getResource g lockId = none →
        rag_setAssignment tid lockId g = none ∧ rag_removeAssignment lockId g = none ∧
        unlock lockId g = none) := by
  constructor
  · intro g tid lockId hsome
    obtain ⟨q, hres⟩ := Option.isSome_iff_exists.mp hsome
    have hres' : rag_getResource g lockId = some (q.1, q.2) := hres
    obtain ⟨ti, tn, hT, htid⟩ := getThread_ensure tid g
    have h1 := setRequest_eq lockId hT
    constructor
    · cases hsr : rag_setRequest tid lockId (ensureThread tid g) with
      | none => exact nomatch h1.symm.trans hsr
      | some g1 =>
        cases hc : (rag_checkForCycles tid g1).1 with
        | true =>
          obtain ⟨ti2, tn2, hT2, htid2, hlock⟩ := lock_reject_run tid lockId g g1 hsr hc
          rw [hlock]
          simp
        | false =>
          obtain ⟨ti2, tn2, rn2, hT2, htid2, hR2, hlid2, hasg2, hlock⟩ :=
            lock_grant_run tid lockId g g1 q.1 q.2 hsr hc hres'
          rw [hlock]
          simp
    · simp only [unlock, removeAssignment_eq hres']
      simp
  · intro g tid lockId hnone
    refine ⟨?_, ?_, ?_⟩
    · simp [rag_setAssignment, hnone]
    · simp [rag_removeAssignment, hnone]
    · simp [unlock, rag_removeAssignment, hnone]

theorem C4_witness :
    lock 5 9 (⟨[⟨5, none, false⟩], [⟨9, some 0, false⟩]⟩ : RAG) =
      some (0, ⟨[⟨5, none, false⟩], [⟨9, some 0, false⟩]⟩,
        [Ev.evSetRequest, Ev.evCheckCycles, Ev.evRemoveRequest]) := by
  obtain ⟨ti, tn2, hT2, hlock, hrest⟩ := C4_reject_path 5 9
    (⟨[⟨5, none, false⟩], [⟨9, some 0, false⟩]⟩ : RAG)
    (⟨[⟨5, some 0, false⟩], [⟨9, some 0, false⟩]⟩ : RAG) rfl rfl
  have he : some ((0 : Nat), (⟨5, some 0, false⟩ : ThreadNode)) = some (ti, tn2) :=
    (show rag_getThread
        (rag_checkForCycles 5 (⟨[⟨5, some 0, false⟩], [⟨9, some 0, false⟩]⟩ : RAG)).2 5 =
      some ((0 : Nat), (⟨5, some 0, false⟩ : ThreadNode)) from rfl).symm.trans hT2
  cases he
  exact hlock

theorem C5_witness :
    lock 2 4 (⟨[], [⟨4, none, false⟩]⟩ : RAG) =
      some (1, ⟨[⟨2, none, false⟩], [⟨4, some 0, false⟩]⟩,
        [Ev.evAddThread, Ev.evSetRequest, Ev.evCheckCycles, Ev.evSetAssignment,
         Ev.evMutexWait, Ev.evRemoveRequest]) := by
  obtain ⟨ti, tn2, rn2, hT2, hR2, hlock, hrest⟩ := C5_grant_path 2 4
    (⟨[], [⟨4, none, false⟩]⟩ : RAG) (⟨[⟨2, some 0, false⟩], [⟨4, none, false⟩]⟩ : RAG)
    0 ⟨4, none, false⟩ rfl rfl rfl
  have he : some ((0 : Nat), (⟨2, some 0, false⟩ : ThreadNode)) = some (ti, tn2) :=
    (show rag_getThread
        (rag_checkForCycles 2 (⟨[⟨2, some 0, false⟩], [⟨4, none, false⟩]⟩ : RAG)).2 2 =
      some ((0 : Nat), (⟨2, some 0, false⟩ : ThreadNode)) from rfl).symm.trans hT2
  cases he
  have he2 : some ((0 : Nat), (⟨4, none, false⟩ : ResourceNode)) = some ((0 : Nat), rn2) :=
    (show rag_getResource
        (rag_checkForCycles 2 (⟨[⟨2, some 0, false⟩], [⟨4, none, false⟩]⟩ : RAG)).2 4 =
      some ((0 : Nat), (⟨4, none, false⟩ : ResourceNode)) from rfl).symm.trans hR2
  cases he2
  exact hlock

theorem C8_witness :
    unlock 3 (⟨[⟨7, none, false⟩], [⟨3, some 0, false⟩]⟩ : RAG) =
      some (⟨[⟨7, none, false⟩], [⟨3, none, false⟩]⟩,
        [Ev.evRemoveAssignment, Ev.evMutexUnlock]) :=
  (C8_release_frame 3 (⟨[⟨7, none, false⟩], [⟨3, some 0, false⟩]⟩ : RAG) 0
    ⟨3, some 0, false⟩ rfl).1

theorem C10_witness :
    lock 2 4 (⟨[], [⟨4, none, false⟩]⟩ : RAG) ≠ none ∧
    unlock 4 (⟨[], [⟨4, none, false⟩]⟩ : RAG) ≠ none ∧
    rag_setAssignment 2 4 (⟨[], []⟩ : RAG) = none ∧
    rag_removeAssignment 4 (⟨[], []⟩ : RAG) = none ∧
    unlock 4 (⟨[], []⟩ : RAG) = none :=
  ⟨(C10_lookup_safety.1 (⟨[], [⟨4, none, false⟩]⟩ : RAG) 2 4 rfl).1,
   (C10_lookup_safety.1 (⟨[], [⟨4, none, false⟩]⟩ : RAG) 2 4 rfl).2,
   (C10_lookup_safety.2 (⟨[], []⟩ : RAG) 2 4 rfl).1,
   (C10_lookup_safety.2 (⟨[], []⟩ : RAG) 2 4 rfl).2.1,
   (C10_lookup_safety.2 (⟨[], []⟩ : RAG) 2 4 rfl).2.2⟩

/-!
A fine-grained operational model of concurrent executions.  Each action is
one atomic graph operation of klock.c (each runs inside the graph
synchronization's critical sections); a lock() call by thread `t` is the
action sequence beginL, setReq, check, then either assign / mutexLock /
finish (grant) or reject; unlock() is unlockA then unlockB.  The pthread
mutex of each lock is modelled by the `held` set: mutexLock is enabled only
while the lock's mutex is free, which is where a lock() call blocks.
-/

/-- The control point of one thread inside a lock() / unlock() call. -/
inductive Phase
  | idle
  | started (l : Nat)
  | requested (l : Nat)
  | checked (l : Nat) (cyc : Bool)
  | assigned (l : Nat)
  | locked (l : Nat)
  | unlocking (l : Nat)
deriving DecidableEq

/-- Whole-system state: the shared graph, each thread's control point, the
set of lock ids whose pthread mutex is held, and the firstRun flag with the
count of times init_lock's one-time semaphore creation block ran. -/
structure Sys where
  rag : RAG
  phases : List (Nat × Phase)
  held : List Nat
  firstRun : Bool
  semCreations : Nat
deriving DecidableEq

/-- Control point of thread `t` (idle when never recorded). -/
def getPhase : List (Nat × Phase) → Nat → Phase
  | [], _ => Phase.idle
  | q :: rest, t => if q.1 == t then q.2 else getPhase rest t

def setPhase : List (Nat × Phase) → Nat → Phase → List (Nat × Phase)
  | [], t, p => [(t, p)]
  | q :: rest, t, p => if q.1 == t then (t, p) :: rest else q :: setPhase rest t p

/-- The atomic actions of the model. -/
inductive Act
  | initL (l : Nat)
  | beginL (t l : Nat)
  | setReq (t : Nat)
  | check (t : Nat)
  | assign (t : Nat)
  | mutexLock (t : Nat)
  | finish (t : Nat)
  | reject (t : Nat)
  | unlockA (t l : Nat)
  | unlockB (t : Nat)
deriving DecidableEq

/-- One atomic step; `none` when the action is disabled (wrong control
point, a blocked mutex, or a crash in a graph helper). -/
def stepSys (s : Sys) (a : Act) : Option Sys :=
  match a with
  | .initL l =>
      some ⟨rag_addResource l s.rag, s.phases, s.held, false,
            if s.firstRun then s.semCreations + 1 else s.semCreations⟩
  | .beginL t l =>
      match getPhase s.phases t with
      | .idle => some ⟨ensureThread t s.rag, setPhase s.phases t (.started l), s.held,
                       s.firstRun, s.semCreations⟩
      | _ => none
  | .setReq t =>
      match getPhase s.phases t with
      | .started l =>
          Option.map (fun g => ⟨g, setPhase s.phases t (.requested l), s.held,
                                s.firstRun, s.semCreations⟩)
            (rag_setRequest t l s.rag)
      | _ => none
  | .check t =>
      match getPhase s.phases t with
      | .requested l =>
          some ⟨(rag_checkForCycles t s.rag).2,
                setPhase s.phases t (.checked l (rag_checkForCycles t s.rag).1),
                s.held, s.firstRun, s.semCreations⟩
      | _ => none
  | .assign t =>
      match getPhase s.phases t with
      | .checked l false =>
          Option.map (fun g => ⟨g, setPhase s.phases t (.assigned l), s.held,
                                s.firstRun, s.semCreations⟩)
            (rag_setAssignment t l s.rag)
      | _ => none
  | .mutexLock t =>
      match getPhase s.phases t with
      | .assigned l =>
          if s.held.contains l then none
          else some ⟨s.rag, setPhase s.phases t (.locked l), l :: s.held,
                     s.firstRun, s.semCreations⟩
      | _ => none
  | .finish t =>
      match getPhase s.phases t with
      | .locked l =>
          Option.map (fun g => ⟨g, setPhase s.phases t .idle, s.held,
                                s.firstRun, s.semCreations⟩)
            (rag_removeRequest t s.rag)
      | _ => none
  | .reject t =>
      match getPhase s.phases t with
      | .checked l true =>
          Option.map (fun g => ⟨g, setPhase s.phases t .idle, s.held,
                                s.firstRun, s.semCreations⟩)
            (rag_removeRequest t s.rag)
      | _ => none
  | .unlockA t l =>
      match getPhase s.phases t with
      | .idle =>
          Option.map (fun g => ⟨g, setPhase s.phases t (.unlocking l), s.held,
                                s.firstRun, s.semCreations⟩)
            (rag_removeAssignment l s.rag)
      | _ => none
  | .unlockB t =>
      match getPhase s.phases t with
      | .unlocking l => some ⟨s.rag, setPhase s.phases t .idle, s.held.erase l,
                              s.firstRun, s.semCreations⟩
      | _ => none

/-- The state at process start: empty graph, all threads idle, no mutex
held, firstRun true, the one-time creation block never run. -/
def sysInit : Sys := ⟨⟨[], []⟩, [], [], true, 0⟩

def runFrom (s : Sys) : List Act → Option Sys
  | [] => some s
  | a :: tr =>
      match stepSys s a with
      | none => none
      | some s1 => runFrom s1 tr

/-- Execution of a finite interleaving of operation steps from the initial
state; `none` when some step is disabled or crashes. -/
def runTrace (tr : List Act) : Option Sys := runFrom sysInit tr

/-- One alternating link: thread node `i` requests a resource whose
assignment edge points to thread node `j`. -/
def altLink (g : RAG) (i j : Nat) : Bool :=
  match g.threads.get? i with
  | none => false
  | some tn =>
      match tn.request with
      | none => false
      | some r =>
          match g.resources.get? r with
          | none => false
          | some rn => rn.assignment == some j

def chainLinks (g : RAG) : Nat → List Nat → Nat → Bool
  | cur, [], head => altLink g cur head
  | cur, j :: rest, head => altLink g cur j && chainLinks g j rest head

/-- `ts` is a nonempty list of thread node indices forming a closed cycle of
alternating request/assignment edges. -/
def isAltCycle (g : RAG) (ts : List Nat) : Bool :=
  match ts with
  | [] => false
  | i :: rest => chainLinks g i rest i

/-- Every thread is at its idle control point (no lock()/unlock() call in
flight). -/
def allIdleB (ps : List (Nat × Phase)) : Bool :=
  ps.all (fun q => decide (q.2 = Phase.idle))

/-! Inversion lemmas for the graph mutators, and list facts used by the
reachability invariants. -/

theorem setRequest_inv {tid l : Nat} {g g' : RAG} (h : rag_setRequest tid l g = some g') :
    ∃ ti tn, rag_getThread g tid = some (ti, tn) ∧ tn.tid = tid ∧ g.threads.get? ti = some tn ∧
      g' = ⟨g.threads.set ti
              ⟨tn.tid, Option.map (fun q => q.1) (rag_getResource g l), tn.travelled⟩,
            g.resources⟩ := by
  cases hq : rag_getThread g tid with
  | none => simp only [rag_setRequest, hq] at h; exact nomatch h
  | some q =>
    obtain ⟨ti, tn⟩ := q
    simp only [rag_setRequest, hq] at h
    cases h
    have hq' : lookupIdx (fun n => n.tid == tid) g.threads = some (ti, tn) := hq
    have h2 := lookupIdx_get? hq'
    have hb : (tn.tid == tid) = true := h2.2
    exact ⟨ti, tn, rfl, eq_of_beq hb, h2.1, rfl⟩

theorem removeRequest_inv {tid : Nat} {g g' : RAG} (h : rag_removeRequest tid g = some g') :
    ∃ ti tn, rag_getThread g tid = some (ti, tn) ∧ tn.tid = tid ∧ g.threads.get? ti = some tn ∧
      g' = ⟨g.threads.set ti ⟨tn.tid, none, tn.travelled⟩, g.resources⟩ := by
  cases hq : rag_getThread g tid with
  | none => simp only [rag_removeRequest, hq] at h; exact nomatch h
  | some q =>
    obtain ⟨ti, tn⟩ := q
    simp only [rag_removeRequest, hq] at h
    cases h
    have hq' : lookupIdx (fun n => n.tid == tid) g.threads = some (ti, tn) := hq
    have h2 := lookupIdx_get? hq'
    have hb : (tn.tid == tid) = true := h2.2
    exact ⟨ti, tn, rfl, eq_of_beq hb, h2.1, rfl⟩

theorem setAssignment_threads {tid l : Nat} {g g' : RAG}
    (h : rag_setAssignment tid l g = some g') : g'.threads = g.threads := by
  cases hq : rag_getResource g l with
  | none => simp only [rag_setAssignment, hq] at h; exact nomatch h
  | some q =>
    obtain ⟨ri, rn⟩ := q
    simp only [rag_setAssignment, hq] at h
    cases h
    rfl

theorem removeAssignment_threads {l : Nat} {g g' : RAG}
    (h : rag_removeAssignment l g = some g') : g'.threads = g.threads := by
  cases hq : rag_getResource g l with
  | none => simp only [rag_removeAssignment, hq] at h; exact nomatch h
  | some q =>
    obtain ⟨ri, rn⟩ := q
    simp only [rag_removeAssignment, hq] at h
    cases h
    rfl

def containsN : List Nat → Nat → Bool
  | [], _ => false
  | x :: xs, y => x == y || containsN xs y

/-- All entries of the list are pairwise distinct. -/
def distinctB : List Nat → Bool
  | [] => true
  | x :: xs => !containsN xs x && distinctB xs

theorem containsN_of_get? : ∀ (l : List Nat) (k y : Nat),
    l.get? k = some y → containsN l y = true
  | [], _, _, h => nomatch h
  | x :: xs, 0, y, h => by
      have hx : x = y := Option.some.inj h
      simp [containsN, hx]
  | x :: xs, k + 1, y, h => by
      have := containsN_of_get? xs k y h
      simp [containsN, this]

theorem distinct_unique {α : Type} {f : α → Nat} : ∀ (l : List α) (i j : Nat) (x y : α),
    distinctB (l.map f) = true → l.get? i = some x → l.get? j = some y → f x = f y → i = j
  | [], _, _, _, _, _, hi, _, _ => nomatch hi
  | z :: zs, 0, 0, _, _, _, _, _, _ => rfl
  | z :: zs, 0, j + 1, x, y, hd, hi, hj, hf => by
      have hx : z = x := Option.some.inj hi
      have hj' : zs.get? j = some y := hj
      have hmap : (zs.map f).get? j = some (f y) := by rw [get?_map', hj']; rfl
      have hc : containsN (zs.map f) (f y) = true := containsN_of_get? _ j _ hmap
      simp only [List.map, distinctB, Bool.and_eq_true, Bool.not_eq_true'] at hd
      rw [hx, hf] at hd
      rw [hd.1] at hc
      exact nomatch hc
  | z :: zs, i + 1, 0, x, y, hd, hi, hj, hf => by
      have hy : z = y := Option.some.inj hj
      have hi' : zs.get? i = some x := hi
      have hmap : (zs.map f).get? i = some (f x) := by rw [get?_map', hi']; rfl
      have hc : containsN (zs.map f) (f x) = true := containsN_of_get? _ i _ hmap
      simp only [List.map, distinctB, Bool.and_eq_true, Bool.not_eq_true'] at hd
      rw [hy, ← hf] at hd
      rw [hd.1] at hc
      exact nomatch hc
  | z :: zs, i + 1, j + 1, x, y, hd, hi, hj, hf => by
      simp only [List.map, distinctB, Bool.and_eq_true, Bool.not_eq_true'] at hd
      have := distinct_unique zs i j x y hd.2 hi hj hf
      rw [this]

theorem treq_map_get? {l l' : List ThreadNode} (h : l'.map treq = l.map treq) {i : Nat}
    {x : ThreadNode} (hx : l'.get? i = some x) :
    ∃ y, l.get? i = some y ∧ x.tid = y.tid ∧ x.request = y.request := by
  have h1 : (l'.map treq).get? i = some (treq x) := by rw [get?_map', hx]; rfl
  rw [h, get?_map'] at h1
  cases hy : l.get? i with
  | none => rw [hy] at h1; exact nomatch h1
  | some y =>
    rw [hy] at h1
    simp only [Option.map_some'] at h1
    have h2 : treq y = treq x := Option.some.inj h1
    simp only [treq, Prod.mk.injEq] at h2
    exact ⟨y, rfl, h2.1.symm, h2.2.symm⟩

theorem tid_map_of_treq {l l' : List ThreadNode} (h : l.map treq = l'.map treq) :
    l.map (fun n => n.tid) = l'.map (fun n => n.tid) := by
  have h2 := congrArg (List.map Prod.fst) h
  rw [List.map_map, List.map_map] at h2
  exact h2

theorem noMatch_not_containsN (tid : Nat) : ∀ (l : List ThreadNode),
    noMatchScan tid l = true → containsN (l.map (fun n => n.tid)) tid = false := by
  intro l
  induction l with
  | nil => intro _; rfl
  | cons n rest ih =>
    intro h
    simp only [noMatchScan] at h
    by_cases hp : (n.tid == tid) = true
    · rw [if_pos hp] at h; exact nomatch h
    · rw [if_neg hp] at h
      have ha : (n.tid == tid) = false := by
        revert hp; cases (n.tid == tid) <;> simp
      simp [containsN, ha, ih h]

theorem containsN_append_single : ∀ (l : List Nat) (t y : Nat),
    containsN (l ++ [t]) y = (containsN l y || (t == y))
  | [], t, y => by simp [containsN]
  | x :: xs, t, y => by
      show (x == y || containsN (xs ++ [t]) y) = ((x == y || containsN xs y) || (t == y))
      rw [containsN_append_single xs t y, Bool.or_assoc]

theorem distinct_append_fresh : ∀ (l : List Nat) (t : Nat),
    distinctB l = true → containsN l t = false → distinctB (l ++ [t]) = true
  | [], t, _, _ => by simp [distinctB, containsN]
  | x :: xs, t, hd, hc => by
      simp only [containsN, Bool.or_eq_false_iff] at hc
      simp only [distinctB, Bool.and_eq_true, Bool.not_eq_true'] at hd
      have hxt : (t == x) = false := by
        have : x ≠ t := by
          intro he
          rw [he] at hc
          have : (t == t) = true := by simp
          rw [this] at hc
          exact nomatch hc.1
        exact beq_eq_false_iff_ne.mpr (fun he => this he.symm)
      show distinctB (x :: (xs ++ [t])) = true
      simp only [distinctB, Bool.and_eq_true, Bool.not_eq_true', containsN_append_single,
        Bool.or_eq_false_iff]
      exact ⟨⟨hd.1, hxt⟩, distinct_append_fresh xs t hd.2 hc.2⟩

theorem getPhase_set_self : ∀ (ps : List (Nat × Phase)) (t : Nat) (p : Phase),
    getPhase (setPhase ps t p) t = p
  | [], t, p => by simp [setPhase, getPhase]
  | q :: rest, t, p => by
      by_cases hq : (q.1 == t) = true
      · simp [setPhase, getPhase, hq]
      · simp only [setPhase, getPhase]
        rw [if_neg hq]
        simp only [getPhase]
        rw [if_neg hq]
        exact getPhase_set_self rest t p

theorem getPhase_set_ne : ∀ (ps : List (Nat × Phase)) (t u : Nat) (p : Phase),
    t ≠ u → getPhase (setPhase ps t p) u = getPhase ps u
  | [], t, u, p, h => by
      simp only [setPhase, getPhase]
      rw [if_neg (by simpa using fun e => h e)]
  | q :: rest, t, u, p, h => by
      by_cases hq : (q.1 == t) = true
      · simp only [setPhase]
        rw [if_pos hq]
        simp only [getPhase]
        have hqt : q.1 = t := eq_of_beq hq
        have h1 : (t == u) = false := beq_eq_false_iff_ne.mpr h
        rw [h1]
        rw [show ((q.1 == u) = false) from by rw [hqt]; exact h1]
        simp
      · simp only [setPhase]
        rw [if_neg hq]
        simp only [getPhase]
        by_cases hu : (q.1 == u) = true
        · rw [if_pos hu, if_pos hu]
        · rw [if_neg hu, if_neg hu]
          exact getPhase_set_ne rest t u p h

theorem get?_append_cases : ∀ (l : List α) (y : α) (i : Nat) (x : α),
    (l ++ [y]).get? i = some x → l.get? i = some x ∨ (i = l.length ∧ x = y)
  | [], y, 0, x, h => Or.inr ⟨rfl, (Option.some.inj h).symm⟩
  | [], y, i + 1, x, h => nomatch h
  | a :: as, y, 0, x, h => Or.inl h
  | a :: as, y, i + 1, x, h =>
      match get?_append_cases as y i x h with
      | Or.inl h2 => Or.inl h2
      | Or.inr ⟨he, hx⟩ => Or.inr ⟨by rw [he]; rfl, hx⟩

/-- Control points at which a thread's request edge may legitimately be set:
between its setReq step and its removeRequest step. -/
def ActiveReq : Phase → Prop
  | Phase.requested _ => True
  | Phase.checked _ _ => True
  | Phase.assigned _ => True
  | Phase.locked _ => True
  | _ => False

/-- The reachability invariant: thread ids are pairwise distinct, and a
thread node carries a request edge only while its thread is between the
setReq and removeRequest steps of a lock() call. -/
def SysInv (s : Sys) : Prop :=
  distinctB (s.rag.threads.map (fun n => n.tid)) = true ∧
  (∀ i tn, s.rag.threads.get? i = some tn → tn.request ≠ none →
    ActiveReq (getPhase s.phases tn.tid))

theorem step_inv {s s' : Sys} {a : Act} (hinv : SysInv s) (hstep : stepSys s a = some s') :
    SysInv s' := by
  obtain ⟨hd, hr⟩ := hinv
  cases a with
  | initL l =>
    simp only [stepSys] at hstep
    cases hstep
    exact ⟨hd, hr⟩
  | beginL t l =>
    simp only [stepSys] at hstep
    split at hstep
    next hph =>
      cases hstep
      constructor
      · show distinctB ((ensureThread t s.rag).threads.map (fun n => n.tid)) = true
        unfold ensureThread
        by_cases hnew : rag_isNewThread t s.rag = true
        · rw [if_pos hnew]
          show distinctB ((s.rag.threads ++ [(⟨t, none, false⟩ : ThreadNode)]).map
            (fun n => n.tid)) = true
          rw [List.map_append]
          exact distinct_append_fresh _ t hd (noMatch_not_containsN t _ hnew)
        · rw [if_neg hnew]
          exact hd
      · intro i tn hget hne
        show ActiveReq (getPhase (setPhase s.phases t (Phase.started l)) tn.tid)
        have hget2 : (ensureThread t s.rag).threads.get? i = some tn := hget
        unfold ensureThread at hget2
        by_cases hnew : rag_isNewThread t s.rag = true
        · rw [if_pos hnew] at hget2
          have hget3 : (s.rag.threads ++ [(⟨t, none, false⟩ : ThreadNode)]).get? i =
              some tn := hget2
          cases get?_append_cases s.rag.threads ⟨t, none, false⟩ i tn hget3 with
          | inl hold =>
            have hact := hr i tn hold hne
            by_cases ht : tn.tid = t
            · rw [ht, hph] at hact
              exact hact.elim
            · rw [getPhase_set_ne _ _ _ _ (fun e => ht e.symm)]
              exact hact
          | inr hnw =>
            rw [hnw.2] at hne
            exact absurd rfl hne
        · rw [if_neg hnew] at hget2
          have hact := hr i tn hget2 hne
          by_cases ht : tn.tid = t
          · rw [ht, hph] at hact
            exact hact.elim
          · rw [getPhase_set_ne _ _ _ _ (fun e => ht e.symm)]
            exact hact
    next => exact nomatch hstep
  | setReq t =>
    simp only [stepSys] at hstep
    split at hstep
    next l hph =>
      cases hsr : rag_setRequest t l s.rag with
      | none => rw [hsr] at hstep; exact nomatch hstep
      | some g2 =>
        rw [hsr] at hstep
        simp only [Option.map_some'] at hstep
        cases hstep
        obtain ⟨ti, tn0, hlook, htid0, hget0, hg2⟩ := setRequest_inv hsr
        subst hg2
        constructor
        · show distinctB ((s.rag.threads.set ti
            ⟨tn0.tid, Option.map (fun q => q.1) (rag_getResource s.rag l),
             tn0.travelled⟩).map (fun n => n.tid)) = true
          rw [set_map_same (fun n : ThreadNode => n.tid) s.rag.threads ti tn0
            ⟨tn0.tid, Option.map (fun q => q.1) (rag_getResource s.rag l), tn0.travelled⟩
            hget0 rfl]
          exact hd
        · intro i tn hget hne
          by_cases hi : i = ti
          · subst hi
            rw [get?_set_self s.rag.threads i _ tn0 hget0] at hget
            have htn := (Option.some.inj hget).symm
            rw [htn]
            show ActiveReq (getPhase (setPhase s.phases t (Phase.requested l)) tn0.tid)
            rw [htid0, getPhase_set_self]
            trivial
          · rw [get?_set_ne s.rag.threads ti i _ (fun e => hi e.symm)] at hget
            have hact := hr i tn hget hne
            by_cases ht : tn.tid = t
            · have heq : i = ti := distinct_unique s.rag.threads i ti tn tn0 hd hget hget0
                (by rw [ht, htid0])
              exact absurd heq hi
            · rw [getPhase_set_ne _ _ _ _ (fun e => ht e.symm)]
              exact hact
    next => exact nomatch hstep
  | check t =>
    simp only [stepSys] at hstep
    split at hstep
    next l hph =>
      cases hstep
      have hm := check_preserves_maps t s.rag
      constructor
      · show distinctB (((rag_checkForCycles t s.rag).2).threads.map (fun n => n.tid)) = true
        rw [tid_map_of_treq hm.1]
        exact hd
      · intro i tn hget hne
        obtain ⟨tn0, hget0, htid0, hreq0⟩ := treq_map_get? hm.1 hget
        have hact := hr i tn0 hget0 (by rw [← hreq0]; exact hne)
        by_cases ht : tn.tid = t
        · rw [ht, getPhase_set_self]
          trivial
        · rw [getPhase_set_ne _ _ _ _ (fun e => ht e.symm), htid0]
          exact hact
    next => exact nomatch hstep
  | assign t =>
    simp only [stepSys] at hstep
    split at hstep
    next l hph =>
      cases hsa : rag_setAssignment t l s.rag with
      | none => rw [hsa] at hstep; exact nomatch hstep
      | some g2 =>
        rw [hsa] at hstep
        simp only [Option.map_some'] at hstep
        cases hstep
        have hth := setAssignment_threads hsa
        constructor
        · show distinctB (g2.threads.map (fun n => n.tid)) = true
          rw [hth]
          exact hd
        · intro i tn hget hne
          have hget2 : g2.threads.get? i = some tn := hget
          rw [hth] at hget2
          have hact := hr i tn hget2 hne
          by_cases ht : tn.tid = t
          · rw [ht, getPhase_set_self]
            trivial
          · rw [getPhase_set_ne _ _ _ _ (fun e => ht e.symm)]
            exact hact
    next => exact nomatch hstep
  | mutexLock t =>
    simp only [stepSys] at hstep
    split at hstep
    next l hph =>
      by_cases hheld : s.held.contains l = true
      · rw [if_pos hheld] at hstep
        exact nomatch hstep
      · rw [if_neg hheld] at hstep
        cases hstep
        refine ⟨hd, ?_⟩
        intro i tn hget hne
        have hact := hr i tn hget hne
        by_cases ht : tn.tid = t
        · rw [ht, getPhase_set_self]
          trivial
        · rw [getPhase_set_ne _ _ _ _ (fun e => ht e.symm)]
          exact hact
    next => exact nomatch hstep
  | finish t =>
    simp only [stepSys] at hstep
    split at hstep
    next l hph =>
      cases hrr : rag_removeRequest t s.rag with
      | none => rw [hrr] at hstep; exact nomatch hstep
      | some g2 =>
        rw [hrr] at hstep
        simp only [Option.map_some'] at hstep
        cases hstep
        obtain ⟨ti, tn0, hlook, htid0, hget0, hg2⟩ := removeRequest_inv hrr
        subst hg2
        constructor
        · show distinctB ((s.rag.threads.set ti
            ⟨tn0.tid, none, tn0.travelled⟩).map (fun n => n.tid)) = true
          rw [set_map_same (fun n : ThreadNode => n.tid) s.rag.threads ti tn0
            ⟨tn0.tid, none, tn0.travelled⟩ hget0 rfl]
          exact hd
        · intro i tn hget hne
          by_cases hi : i = ti
          · subst hi
            rw [get?_set_self s.rag.threads i _ tn0 hget0] at hget
            have htn := (Option.some.inj hget).symm
            rw [htn] at hne
            exact absurd rfl hne
          · rw [get?_set_ne s.rag.threads ti i _ (fun e => hi e.symm)] at hget
            have hact := hr i tn hget hne
            by_cases ht : tn.tid = t
            · have heq : i = ti := distinct_unique s.rag.threads i ti tn tn0 hd hget hget0
                (by rw [ht, htid0])
              exact absurd heq hi
            · rw [getPhase_set_ne _ _ _ _ (fun e => ht e.symm)]
              exact hact
    next => exact nomatch hstep
  | reject t =>
    simp only [stepSys] at hstep
    split at hstep
    next l hph =>
      cases hrr : rag_removeRequest t s.rag with
      | none => rw [hrr] at hstep; exact nomatch hstep
      | some g2 =>
        rw [hrr] at hstep
        simp only [Option.map_some'] at hstep
        cases hstep
        obtain ⟨ti, tn0, hlook, htid0, hget0, hg2⟩ := removeRequest_inv hrr
        subst hg2
        constructor
        · show distinctB ((s.rag.threads.set ti
            ⟨tn0.tid, none, tn0.travelled⟩).map (fun n => n.tid)) = true
          rw [set_map_same (fun n : ThreadNode => n.tid) s.rag.threads ti tn0
            ⟨tn0.tid, none, tn0.travelled⟩ hget0 rfl]
          exact hd
        · intro i tn hget hne
          by_cases hi : i = ti
          · subst hi
            rw [get?_set_self s.rag.threads i _ tn0 hget0] at hget
            have htn := (Option.some.inj hget).symm
            rw [htn] at hne
            exact absurd rfl hne
          · rw [get?_set_ne s.rag.threads ti i _ (fun e => hi e.symm)] at hget
            have hact := hr i tn hget hne
            by_cases ht : tn.tid = t
            · have heq : i = ti := distinct_unique s.rag.threads i ti tn tn0 hd hget hget0
                (by rw [ht, htid0])
              exact absurd heq hi
            · rw [getPhase_set_ne _ _ _ _ (fun e => ht e.symm)]
              exact hact
    next => exact nomatch hstep
  | unlockA t l =>
    simp only [stepSys] at hstep
    split at hstep
    next hph =>
      cases hra : rag_removeAssignment l s.rag with
      | none => rw [hra] at hstep; exact nomatch hstep
      | some g2 =>
        rw [hra] at hstep
        simp only [Option.map_some'] at hstep
        cases hstep
        have hth := removeAssignment_threads hra
        constructor
        · show distinctB (g2.threads.map (fun n => n.tid)) = true
          rw [hth]
          exact hd
        · intro i tn hget hne
          have hget2 : g2.threads.get? i = some tn := hget
          rw [hth] at hget2
          have hact := hr i tn hget2 hne
          by_cases ht : tn.tid = t
          · rw [ht, hph] at hact
            exact hact.elim
          · rw [getPhase_set_ne _ _ _ _ (fun e => ht e.symm)]
            exact hact
    next => exact nomatch hstep
  | unlockB t =>
    simp only [stepSys] at hstep
    split at hstep
    next l hph =>
      cases hstep
      refine ⟨hd, ?_⟩
      intro i tn hget hne
      have hact := hr i tn hget hne
      by_cases ht : tn.tid = t
      · rw [ht, hph] at hact
        exact hact.elim
      · rw [getPhase_set_ne _ _ _ _ (fun e => ht e.symm)]
        exact hact
    next => exact nomatch hstep

theorem run_inv : ∀ (tr : List Act) (s0 s : Sys), SysInv s0 → runFrom s0 tr = some s → SysInv s
  | [], s0, s, h0, hrun => by
      cases hrun
      exact h0
  | a :: tr, s0, s, h0, hrun => by
      simp only [runFrom] at hrun
      cases hst : stepSys s0 a with
      | none => rw [hst] at hrun; exact nomatch hrun
      | some s1 =>
        rw [hst] at hrun
        exact run_inv tr s1 s (step_inv h0 hst) hrun

theorem sysInit_inv : SysInv sysInit := ⟨rfl, fun i tn h => nomatch h⟩

theorem allIdle_getPhase : ∀ (ps : List (Nat × Phase)), allIdleB ps = true →
    ∀ t, getPhase ps t = Phase.idle := by
  intro ps
  induction ps with
  | nil => intro _ t; rfl
  | cons q rest ih =>
    intro h t
    simp only [allIdleB, List.all_cons, Bool.and_eq_true, decide_eq_true_eq] at h
    simp only [getPhase]
    by_cases hq : (q.1 == t) = true
    · rw [if_pos hq]
      exact h.1
    · rw [if_neg hq]
      exact ih h.2 t

theorem altLink_false {g : RAG} (hreq : ∀ i tn, g.threads.get? i = some tn → tn.request = none) :
    ∀ i j, altLink g i j = false := by
  intro i j
  cases hg : g.threads.get? i with
  | none =>
    have hg' : g.threads[i]? = none := by rw [← List.get?_eq_getElem?]; exact hg
    simp [altLink, hg']
  | some tn =>
    have hg' : g.threads[i]? = some tn := by rw [← List.get?_eq_getElem?]; exact hg
    simp [altLink, hg', hreq i tn hg]

theorem chainLinks_false {g : RAG} (h : ∀ i j, altLink g i j = false) :
    ∀ (cur : Nat) (rest : List Nat) (head : Nat), chainLinks g cur rest head = false
  | cur, [], head => by simp [chainLinks, h]
  | cur, j :: rest, head => by simp [chainLinks, h]

theorem noAltCycle_of_noRequests {g : RAG}
    (hreq : ∀ i tn, g.threads.get? i = some tn → tn.request = none) :
    ∀ ts, isAltCycle g ts = false
  | [] => rfl
  | i :: rest => chainLinks_false (altLink_false hreq) i rest i

/-- Claim C1 (amended): in every reachable state of the fine-grained
interleaving model in which no acquire or release is mid-flight, the graph
contains no cycle of alternating request and assignment edges; and an
acquire whose cycle check reported a cycle is rejected before its
assignment edge is applied — its rejection step leaves every resource node
(hence every assignment edge) unchanged, and the assignment step is
disabled for it.  (The unamended claim — no reachable state at all contains
such a cycle — is refuted by C1_counterexample: while an acquire is blocked
in its mutex wait, its request edge and the overwritten assignment edge
form an alternating 2-cycle.) -/
theorem C1_quiescent_acyclic :
    (∀ tr s, runTrace tr = some s → allIdleB s.phases = true →
        ∀ ts, isAltCycle s.rag ts = false) ∧
    (∀ s t s1, stepSys s (Act.reject t) = some s1 → s1.rag.resources = s.rag.resources) ∧
    (∀ s t l, getPhase s.phases t = Phase.checked l true → stepSys s (Act.assign t) = none) := by
  refine ⟨?_, ?_, ?_⟩
  · intro tr s hrun hidle
    have hinv := run_inv tr sysInit s sysInit_inv hrun
    have hph := allIdle_getPhase s.phases hidle
    have hreq : ∀ i tn, s.rag.threads.get? i = some tn → tn.request = none := by
      intro i tn hget
      by_contra hne
      have hact := hinv.2 i tn hget hne
      rw [hph tn.tid] at hact
      exact hact.elim
    exact noAltCycle_of_noRequests hreq
  · intro s t s1 hstep
    simp only [stepSys] at hstep
    split at hstep
    next l hph =>
      cases hrr : rag_removeRequest t s.rag with
      | none => rw [hrr] at hstep; exact nomatch hstep
      | some g2 =>
        rw [hrr] at hstep
        simp only [Option.map_some'] at hstep
        cases hstep
        obtain ⟨ti, tn0, hlook, htid0, hget0, hg2⟩ := removeRequest_inv hrr
        rw [hg2]
    next => exact nomatch hstep
  · intro s t l hph
    simp only [stepSys, hph]

def trC1cex : List Act :=
  [Act.initL 0, Act.beginL 10 0, Act.setReq 10, Act.check 10, Act.assign 10,
   Act.mutexLock 10, Act.finish 10,
   Act.beginL 11 0, Act.setReq 11, Act.check 11, Act.assign 11]

def sC1cex : Sys :=
  ⟨⟨[⟨10, none, false⟩, ⟨11, some 0, false⟩], [⟨0, some 1, false⟩]⟩,
   [(10, Phase.idle), (11, Phase.assigned 0)], [0], false, 1⟩

/-- Claim C1, counterexample to the unamended statement: thread 10 acquires
lock 0 and holds it; thread 11 then runs an acquire of lock 0 up to its
blocking mutex wait — its cycle check passed (no cycle was visible), its
assignment step overwrote the resource's assignment edge, and now its
request edge together with that assignment edge is an alternating 2-cycle
(thread node 1 → resource 0 → thread node 1) in a reachable graph state,
while thread 11's mutexLock step is disabled (it is blocked). -/
theorem C1_counterexample :
    runTrace trC1cex = some sC1cex ∧ isAltCycle sC1cex.rag [1] = true ∧
    stepSys sC1cex (Act.mutexLock 11) = none := by
  refine ⟨?_, ?_, ?_⟩ <;> rfl

def trC1w : List Act :=
  [Act.initL 0, Act.beginL 10 0, Act.setReq 10, Act.check 10, Act.assign 10,
   Act.mutexLock 10, Act.finish 10]

def sC1w : Sys :=
  ⟨⟨[⟨10, none, false⟩], [⟨0, some 0, false⟩]⟩, [(10, Phase.idle)], [0], false, 1⟩

theorem C1_witness :
    runTrace trC1w = some sC1w ∧ allIdleB sC1w.phases = true ∧
    isAltCycle sC1w.rag [0] = false :=
  ⟨rfl, rfl, C1_quiescent_acyclic.1 trC1w sC1w rfl rfl [0]⟩

/-! Counting thread nodes per tid (claim C9) and resource nodes per lock
(claim C7) across machine runs. -/

def countN : List Nat → Nat → Nat
  | [], _ => 0
  | x :: xs, t => (if x == t then 1 else 0) + countN xs t

/-- Number of thread nodes carrying the given tid. -/
def countTid (g : RAG) (t : Nat) : Nat := countN (g.threads.map (fun n => n.tid)) t

/-- Number of resource nodes registered for the given lock. -/
def countRes (g : RAG) (l : Nat) : Nat := countN (g.resources.map (fun n => n.lockId)) l

/-- The action is the registration step of a lock() call by thread t. -/
def actBeginsT (a : Act) (t : Nat) : Bool :=
  match a with
  | Act.beginL u _ => u == t
  | _ => false

def hasBegin (tr : List Act) (t : Nat) : Bool := tr.any (fun a => actBeginsT a t)

theorem countN_append_single : ∀ (l : List Nat) (x t : Nat),
    countN (l ++ [x]) t = countN l t + (if x == t then 1 else 0)
  | [], x, t => by simp [countN]
  | y :: ys, x, t => by
      show (if y == t then 1 else 0) + countN (ys ++ [x]) t =
        ((if y == t then 1 else 0) + countN ys t) + (if x == t then 1 else 0)
      rw [countN_append_single ys x t, Nat.add_assoc]

theorem noMatch_countN (t : Nat) : ∀ (l : List ThreadNode),
    noMatchScan t l = true ↔ countN (l.map (fun n => n.tid)) t = 0 := by
  intro l
  induction l with
  | nil => simp [noMatchScan, countN]
  | cons n rest ih =>
    by_cases hp : (n.tid == t) = true
    · simp [noMatchScan, countN, hp]
    · have hp' : (n.tid == t) = false := by
        revert hp; cases (n.tid == t) <;> simp
      simp only [noMatchScan, countN, List.map, hp']
      rw [if_neg (by simp), if_neg (by simp [hp'])]
      simpa using ih

theorem step_count {s s' : Sys} {a : Act} (h : stepSys s a = some s') (t : Nat)
    (hle : countTid s.rag t ≤ 1) :
    countTid s'.rag t = (if actBeginsT a t then 1 else countTid s.rag t) := by
  cases a with
  | initL l =>
    simp only [stepSys] at h
    cases h
    simp [actBeginsT, countTid, rag_addResource]
  | beginL u l =>
    simp only [stepSys] at h
    split at h
    next hph =>
      cases h
      show countTid (ensureThread u s.rag) t = _
      unfold ensureThread
      by_cases hnew : rag_isNewThread u s.rag = true
      · rw [if_pos hnew]
        have hz : countN (s.rag.threads.map (fun n => n.tid)) u = 0 :=
          (noMatch_countN u s.rag.threads).mp hnew
        show countN ((s.rag.threads ++ [(⟨u, none, false⟩ : ThreadNode)]).map
          (fun n => n.tid)) t = _
        rw [List.map_append]
        have : (([(⟨u, none, false⟩ : ThreadNode)]).map (fun n => n.tid)) = [u] := rfl
        rw [this]
        rw [countN_append_single]
        by_cases hut : (u == t) = true
        · have hu : u = t := eq_of_beq hut
          subst hu
          simp only [actBeginsT]
          rw [if_pos hut, if_pos hut, hz]
        · simp only [actBeginsT]
          rw [if_neg hut, if_neg hut]
          rfl
      · rw [if_neg hnew]
        simp only [actBeginsT]
        by_cases hut : (u == t) = true
        · have hu : u = t := eq_of_beq hut
          subst hu
          rw [if_pos hut]
          have hnz : countN (s.rag.threads.map (fun n => n.tid)) u ≠ 0 := by
            intro hz
            exact hnew ((noMatch_countN u s.rag.threads).mpr hz)
          have h1 : 1 ≤ countTid s.rag u := Nat.one_le_iff_ne_zero.mpr hnz
          exact Nat.le_antisymm hle h1
        · rw [if_neg hut]
    next => exact nomatch h
  | setReq u =>
    simp only [stepSys] at h
    split at h
    next l hph =>
      cases hsr : rag_setRequest u l s.rag with
      | none => rw [hsr] at h; exact nomatch h
      | some g2 =>
        rw [hsr] at h
        simp only [Option.map_some'] at h
        cases h
        obtain ⟨ti, tn0, hlook, htid0, hget0, hg2⟩ := setRequest_inv hsr
        subst hg2
        show countN ((s.rag.threads.set ti
          ⟨tn0.tid, Option.map (fun q => q.1) (rag_getResource s.rag l),
           tn0.travelled⟩).map (fun n => n.tid)) t = _
        rw [set_map_same (fun n : ThreadNode => n.tid) s.rag.threads ti tn0
          ⟨tn0.tid, Option.map (fun q => q.1) (rag_getResource s.rag l), tn0.travelled⟩
          hget0 rfl]
        simp [actBeginsT, countTid]
    next => exact nomatch h
  | check u =>
    simp only [stepSys] at h
    split at h
    next l hph =>
      cases h
      show countN (((rag_checkForCycles u s.rag).2).threads.map (fun n => n.tid)) t = _
      rw [tid_map_of_treq (check_preserves_maps u s.rag).1]
      simp [actBeginsT, countTid]
    next => exact nomatch h
  | assign u =>
    simp only [stepSys] at h
    split at h
    next l hph =>
      cases hsa : rag_setAssignment u l s.rag with
      | none => rw [hsa] at h; exact nomatch h
      | some g2 =>
        rw [hsa] at h
        simp only [Option.map_some'] at h
        cases h
        show countN (g2.threads.map (fun n => n.tid)) t = _
        rw [setAssignment_threads hsa]
        simp [actBeginsT, countTid]
    next => exact nomatch h
  | mutexLock u =>
    simp only [stepSys] at h
    split at h
    next l hph =>
      by_cases hheld : s.held.contains l = true
      · rw [if_pos hheld] at h; exact nomatch h
      · rw [if_neg hheld] at h
        cases h
        simp [actBeginsT, countTid]
    next => exact nomatch h
  | finish u =>
    simp only [stepSys] at h
    split at h
    next l hph =>
      cases hrr : rag_removeRequest u s.rag with
      | none => rw [hrr] at h; exact nomatch h
      | some g2 =>
        rw [hrr] at h
        simp only [Option.map_some'] at h
        cases h
        obtain ⟨ti, tn0, hlook, htid0, hget0, hg2⟩ := removeRequest_inv hrr
        subst hg2
        show countN ((s.rag.threads.set ti
          ⟨tn0.tid, none, tn0.travelled⟩).map (fun n => n.tid)) t = _
        rw [set_map_same (fun n : ThreadNode => n.tid) s.rag.threads ti tn0
          ⟨tn0.tid, none, tn0.travelled⟩ hget0 rfl]
        simp [actBeginsT, countTid]
    next => exact nomatch h
  | reject u =>
    simp only [stepSys] at h
    split at h
    next l hph =>
      cases hrr : rag_removeRequest u s.rag with
      | none => rw [hrr] at h; exact nomatch h
      | some g2 =>
        rw [hrr] at h
        simp only [Option.map_some'] at h
        cases h
        obtain ⟨ti, tn0, hlook, htid0, hget0, hg2⟩ := removeRequest_inv hrr
        subst hg2
        show countN ((s.rag.threads.set ti
          ⟨tn0.tid, none, tn0.travelled⟩).map (fun n => n.tid)) t = _
        rw [set_map_same (fun n : ThreadNode => n.tid) s.rag.threads ti tn0
          ⟨tn0.tid, none, tn0.travelled⟩ hget0 rfl]
        simp [actBeginsT, countTid]
    next => exact nomatch h
  | unlockA u l =>
    simp only [stepSys] at h
    split at h
    next hph =>
      cases hra : rag_removeAssignment l s.rag with
      | none => rw [hra] at h; exact nomatch h
      | some g2 =>
        rw [hra] at h
        simp only [Option.map_some'] at h
        cases h
        show countN (g2.threads.map (fun n => n.tid)) t = _
        rw [removeAssignment_threads hra]
        simp [actBeginsT, countTid]
    next => exact nomatch h
  | unlockB u =>
    simp only [stepSys] at h
    split at h
    next l hph =>
      cases h
      simp [actBeginsT, countTid]
    next => exact nomatch h

theorem run_count : ∀ (tr : List Act) (s0 s : Sys), runFrom s0 tr = some s → ∀ t,
    countTid s0.rag t ≤ 1 →
    countTid s.rag t = (if hasBegin tr t then 1 else countTid s0.rag t)
  | [], s0, s, hrun, t, hle => by
      cases hrun
      simp [hasBegin]
  | a :: tr, s0, s, hrun, t, hle => by
      simp only [runFrom] at hrun
      cases hst : stepSys s0 a with
      | none => rw [hst] at hrun; exact nomatch hrun
      | some s1 =>
        rw [hst] at hrun
        have hc := step_count hst t hle
        have hle1 : countTid s1.rag t ≤ 1 := by
          rw [hc]
          by_cases hb : actBeginsT a t = true
          · rw [if_pos hb]
          · rw [if_neg hb]
            exact hle
        have hrec := run_count tr s1 s hrun t hle1
        rw [hrec, hc]
        show _ = (if hasBegin (a :: tr) t then 1 else countTid s0.rag t)
        have hcons : hasBegin (a :: tr) t = (actBeginsT a t || hasBegin tr t) := by
          simp [hasBegin, List.any_cons]
        rw [hcons]
        by_cases hb1 : hasBegin tr t = true
        · rw [if_pos hb1]
          rw [if_pos (by rw [hb1, Bool.or_true])]
        · have hb1' : hasBegin tr t = false := by
            revert hb1; cases (hasBegin tr t) <;> simp
          rw [if_neg hb1, hb1', Bool.or_false]

/-- Claim C9: a thread node for a calling thread id is created exactly on
the first acquire by a previously-unseen id (the beginL registration step
of a lock() call) and never removed, so in every reachable state the thread
collection contains exactly one node for an id that has performed an
acquire and none otherwise — in particular, at most one node per thread id. -/
theorem C9_thread_nodes (tr : List Act) (s : Sys) (hrun : runTrace tr = some s) (t : Nat) :
    countTid s.rag t = (if hasBegin tr t then 1 else 0) :=
  run_count tr sysInit s hrun t (by simp [countTid, countN])

theorem C9_witness :
    runTrace [Act.initL 0, Act.beginL 10 0] =
      some ⟨⟨[⟨10, none, false⟩], [⟨0, none, false⟩]⟩, [(10, Phase.started 0)], [], false, 1⟩ ∧
    countTid (⟨[⟨10, none, false⟩], [⟨0, none, false⟩]⟩ : RAG) 10 = 1 ∧
    countTid (⟨[⟨10, none, false⟩], [⟨0, none, false⟩]⟩ : RAG) 11 = 0 :=
  ⟨rfl,
   (C9_thread_nodes [Act.initL 0, Act.beginL 10 0]
     ⟨⟨[⟨10, none, false⟩], [⟨0, none, false⟩]⟩, [(10, Phase.started 0)], [], false, 1⟩
     rfl 10).trans rfl,
   (C9_thread_nodes [Act.initL 0, Act.beginL 10 0]
     ⟨⟨[⟨10, none, false⟩], [⟨0, none, false⟩]⟩, [(10, Phase.started 0)], [], false, 1⟩
     rfl 11).trans rfl⟩

/-- The lock ids passed to the initL actions of a trace, in order. -/
def initsOf : List Act → List Nat
  | [] => []
  | Act.initL l :: tr => l :: initsOf tr
  | _ :: tr => initsOf tr

theorem setAssignment_inv2 {tid l : Nat} {g g' : RAG} (h : rag_setAssignment tid l g = some g') :
    ∃ ri rn, g.resources.get? ri = some rn ∧
      g' = ⟨g.threads, g.resources.set ri
        ⟨rn.lockId, Option.map (fun q => q.1) (rag_getThread g tid), rn.travelled⟩⟩ := by
  cases hq : rag_getResource g l with
  | none => simp only [rag_setAssignment, hq] at h; exact nomatch h
  | some q =>
    obtain ⟨ri, rn⟩ := q
    simp only [rag_setAssignment, hq] at h
    cases h
    have hq' : lookupIdx (fun n => n.lockId == l) g.resources = some (ri, rn) := hq
    exact ⟨ri, rn, (lookupIdx_get? hq').1, rfl⟩

theorem removeAssignment_inv2 {l : Nat} {g g' : RAG} (h : rag_removeAssignment l g = some g') :
    ∃ ri rn, g.resources.get? ri = some rn ∧
      g' = ⟨g.threads, g.resources.set ri ⟨rn.lockId, none, rn.travelled⟩⟩ := by
  cases hq : rag_getResource g l with
  | none => simp only [rag_removeAssignment, hq] at h; exact nomatch h
  | some q =>
    obtain ⟨ri, rn⟩ := q
    simp only [rag_removeAssignment, hq] at h
    cases h
    have hq' : lookupIdx (fun n => n.lockId == l) g.resources = some (ri, rn) := hq
    exact ⟨ri, rn, (lookupIdx_get? hq').1, rfl⟩

theorem lid_map_of_rasg {l l' : List ResourceNode} (h : l.map rasg = l'.map rasg) :
    l.map (fun n => n.lockId) = l'.map (fun n => n.lockId) := by
  have h2 := congrArg (List.map Prod.fst) h
  rw [List.map_map, List.map_map] at h2
  exact h2

theorem initsOf_cons_noninit {a : Act} (h : initsOf [a] = []) (tr : List Act) :
    initsOf (a :: tr) = initsOf tr := by
  cases a <;> first | rfl | exact nomatch h

theorem step_res {s s' : Sys} {a : Act} (h : stepSys s a = some s') :
    (∃ l, a = Act.initL l ∧
      s'.rag.resources.map (fun n => n.lockId) =
        s.rag.resources.map (fun n => n.lockId) ++ [l] ∧
      s'.firstRun = false ∧
      s'.semCreations = (if s.firstRun then s.semCreations + 1 else s.semCreations)) ∨
    (initsOf [a] = [] ∧
      s'.rag.resources.map (fun n => n.lockId) = s.rag.resources.map (fun n => n.lockId) ∧
      s'.firstRun = s.firstRun ∧ s'.semCreations = s.semCreations) := by
  cases a with
  | initL l =>
    simp only [stepSys] at h
    cases h
    refine Or.inl ⟨l, rfl, ?_, rfl, rfl⟩
    simp [rag_addResource, List.map_append]
  | beginL u l =>
    simp only [stepSys] at h
    split at h
    next hph =>
      cases h
      refine Or.inr ⟨rfl, ?_, rfl, rfl⟩
      show (ensureThread u s.rag).resources.map (fun n => n.lockId) = _
      rw [ensure_resources]
    next => exact nomatch h
  | setReq u =>
    simp only [stepSys] at h
    split at h
    next l hph =>
      cases hsr : rag_setRequest u l s.rag with
      | none => rw [hsr] at h; exact nomatch h
      | some g2 =>
        rw [hsr] at h
        simp only [Option.map_some'] at h
        cases h
        refine Or.inr ⟨rfl, ?_, rfl, rfl⟩
        show g2.resources.map (fun n => n.lockId) = _
        rw [setRequest_resources hsr]
    next => exact nomatch h
  | check u =>
    simp only [stepSys] at h
    split at h
    next l hph =>
      cases h
      refine Or.inr ⟨rfl, ?_, rfl, rfl⟩
      show ((rag_checkForCycles u s.rag).2).resources.map (fun n => n.lockId) = _
      exact lid_map_of_rasg (check_preserves_maps u s.rag).2
    next => exact nomatch h
  | assign u =>
    simp only [stepSys] at h
    split at h
    next l hph =>
      cases hsa : rag_setAssignment u l s.rag with
      | none => rw [hsa] at h; exact nomatch h
      | some g2 =>
        rw [hsa] at h
        simp only [Option.map_some'] at h
        cases h
        refine Or.inr ⟨rfl, ?_, rfl, rfl⟩
        obtain ⟨ri, rn, hget, hg2⟩ := setAssignment_inv2 hsa
        subst hg2
        show ((s.rag.resources.set ri
          ⟨rn.lockId, Option.map (fun q => q.1) (rag_getThread s.rag u),
           rn.travelled⟩).map (fun n => n.lockId)) = _
        rw [set_map_same (fun n : ResourceNode => n.lockId) s.rag.resources ri rn
          ⟨rn.lockId, Option.map (fun q => q.1) (rag_getThread s.rag u), rn.travelled⟩
          hget rfl]
    next => exact nomatch h
  | mutexLock u =>
    simp only [stepSys] at h
    split at h
    next l hph =>
      by_cases hheld : s.held.contains l = true
      · rw [if_pos hheld] at h; exact nomatch h
      · rw [if_neg hheld] at h
        cases h
        exact Or.inr ⟨rfl, rfl, rfl, rfl⟩
    next => exact nomatch h
  | finish u =>
    simp only [stepSys] at h
    split at h
    next l hph =>
      cases hrr : rag_removeRequest u s.rag with
      | none => rw [hrr] at h; exact nomatch h
      | some g2 =>
        rw [hrr] at h
        simp only [Option.map_some'] at h
        cases h
        refine Or.inr ⟨rfl, ?_, rfl, rfl⟩
        obtain ⟨ti, tn0, hlook, htid0, hget0, hg2⟩ := removeRequest_inv hrr
        subst hg2
        rfl
    next => exact nomatch h
  | reject u =>
    simp only [stepSys] at h
    split at h
    next l hph =>
      cases hrr : rag_removeRequest u s.rag with
      | none => rw [hrr] at h; exact nomatch h
      | some g2 =>
        rw [hrr] at h
        simp only [Option.map_some'] at h
        cases h
        refine Or.inr ⟨rfl, ?_, rfl, rfl⟩
        obtain ⟨ti, tn0, hlook, htid0, hget0, hg2⟩ := removeRequest_inv hrr
        subst hg2
        rfl
    next => exact nomatch h
  | unlockA u l =>
    simp only [stepSys] at h
    split at h
    next hph =>
      cases hra : rag_removeAssignment l s.rag with
      | none => rw [hra] at h; exact nomatch h
      | some g2 =>
        rw [hra] at h
        simp only [Option.map_some'] at h
        cases h
        refine Or.inr ⟨rfl, ?_, rfl, rfl⟩
        obtain ⟨ri, rn, hget, hg2⟩ := removeAssignment_inv2 hra
        subst hg2
        show ((s.rag.resources.set ri ⟨rn.lockId, none, rn.travelled⟩).map
          (fun n => n.lockId)) = _
        rw [set_map_same (fun n : ResourceNode => n.lockId) s.rag.resources ri rn
          ⟨rn.lockId, none, rn.travelled⟩ hget rfl]
    next => exact nomatch h
  | unlockB u =>
    simp only [stepSys] at h
    split at h
    next l hph =>
      cases h
      exact Or.inr ⟨rfl, rfl, rfl, rfl⟩
    next => exact nomatch h

theorem run_res : ∀ (tr : List Act) (s0 s : Sys), runFrom s0 tr = some s →
    s.rag.resources.map (fun n => n.lockId) =
      s0.rag.resources.map (fun n => n.lockId) ++ initsOf tr ∧
    s.firstRun = (s0.firstRun && (initsOf tr).isEmpty) ∧
    s.semCreations = s0.semCreations +
      (if s0.firstRun = true ∧ initsOf tr ≠ [] then 1 else 0)
  | [], s0, s, hrun => by
      cases hrun
      simp [initsOf]
  | a :: tr, s0, s, hrun => by
      simp only [runFrom] at hrun
      cases hst : stepSys s0 a with
      | none => rw [hst] at hrun; exact nomatch hrun
      | some s1 =>
        rw [hst] at hrun
        obtain ⟨hm2, hf2, hc2⟩ := run_res tr s1 s hrun
        cases step_res hst with
        | inl hini =>
          obtain ⟨l, ha, hm, hf, hc⟩ := hini
          subst ha
          refine ⟨?_, ?_, ?_⟩
          · rw [hm2, hm]
            show (s0.rag.resources.map (fun n => n.lockId) ++ [l]) ++ initsOf tr =
              s0.rag.resources.map (fun n => n.lockId) ++ (l :: initsOf tr)
            rw [List.append_assoc]
            rfl
          · rw [hf2, hf]
            show (false && (initsOf tr).isEmpty) = _
            simp [initsOf]
          · rw [hc2, hc, hf]
            show _ = s0.semCreations + (if s0.firstRun = true ∧ (l :: initsOf tr) ≠ [] then 1 else 0)
            by_cases hfr : s0.firstRun = true
            · simp [hfr]
            · simp [hfr]
        | inr hrest =>
          obtain ⟨hno, hm, hf, hc⟩ := hrest
          rw [initsOf_cons_noninit hno tr]
          refine ⟨?_, ?_, ?_⟩
          · rw [hm2, hm]
          · rw [hf2, hf]
          · rw [hc2, hc, hf]

/-- Claim C7: init_lock appends exactly one new resource node for the given
lock (with no assignment edge and travelled false) to the end of the
resource collection and runs the process-wide semaphore creation block only
on the first call (the firstRun flag); consequently, over any run, the
creation block has run exactly once when at least one initialize happened
(never otherwise), and the number of resource nodes per lock equals the
number of initialize calls for it — exactly one when the lock was
initialized exactly once. -/
theorem C7_init_once :
    (∀ s l, stepSys s (Act.initL l) =
        some ⟨⟨s.rag.threads, s.rag.resources ++ [⟨l, none, false⟩]⟩, s.phases, s.held, false,
              if s.firstRun then s.semCreations + 1 else s.semCreations⟩) ∧
    (∀ tr s, runTrace tr = some s →
        (∀ l, countRes s.rag l = countN (initsOf tr) l) ∧
        s.semCreations = (if initsOf tr = [] then 0 else 1) ∧
        s.firstRun = (initsOf tr).isEmpty) := by
  constructor
  · intro s l
    rfl
  · intro tr s hrun
    obtain ⟨hm, hf, hc⟩ := run_res tr sysInit s hrun
    refine ⟨?_, ?_, ?_⟩
    · intro l
      unfold countRes
      rw [hm]
      rfl
    · rw [hc]
      by_cases hn : initsOf tr = []
      · simp [hn, sysInit]
      · simp [hn, sysInit]
    · rw [hf]
      rfl

theorem C7_witness :
    runTrace [Act.initL 0, Act.initL 5] =
      some ⟨⟨[], [⟨0, none, false⟩, ⟨5, none, false⟩]⟩, [], [], false, 1⟩ ∧
    countRes (⟨[], [⟨0, none, false⟩, ⟨5, none, false⟩]⟩ : RAG) 0 = 1 ∧
    countRes (⟨[], [⟨0, none, false⟩, ⟨5, none, false⟩]⟩ : RAG) 5 = 1 ∧
    countRes (⟨[], [⟨0, none, false⟩, ⟨5, none, false⟩]⟩ : RAG) 7 = 0 ∧
    (⟨⟨[], [⟨0, none, false⟩, ⟨5, none, false⟩]⟩, [], [], false, 1⟩ : Sys).semCreations = 1 :=
  ⟨rfl,
   (((C7_init_once.2 [Act.initL 0, Act.initL 5]
      ⟨⟨[], [⟨0, none, false⟩, ⟨5, none, false⟩]⟩, [], [], false, 1⟩ rfl).1) 0).trans rfl,
   (((C7_init_once.2 [Act.initL 0, Act.initL 5]
      ⟨⟨[], [⟨0, none, false⟩, ⟨5, none, false⟩]⟩, [], [], false, 1⟩ rfl).1) 5).trans rfl,
   (((C7_init_once.2 [Act.initL 0, Act.initL 5]
      ⟨⟨[], [⟨0, none, false⟩, ⟨5, none, false⟩]⟩, [], [], false, 1⟩ rfl).1) 7).trans rfl,
   ((C7_init_once.2 [Act.initL 0, Act.initL 5]
      ⟨⟨[], [⟨0, none, false⟩, ⟨5, none, false⟩]⟩, [], [], false, 1⟩ rfl).2.1).trans rfl⟩

/-! Claim C2: the cycle check against the specification's walk.  The spec
walk carries explicit visited lists instead of in-graph travelled flags. -/

theorem mem_of_get? : ∀ {l : List α} {i : Nat} {x : α}, l.get? i = some x → x ∈ l
  | [], _, _, h => nomatch h
  | a :: as, 0, x, h => by
      have : a = x := Option.some.inj h
      exact this ▸ List.mem_cons_self a as
  | a :: as, i + 1, x, h => List.mem_cons_of_mem a (mem_of_get? h)

theorem containsN_true_of_mem : ∀ {l : List Nat} {y : Nat}, y ∈ l → containsN l y = true := by
  intro l
  induction l with
  | nil => intro y h; exact absurd h (List.not_mem_nil y)
  | cons x xs ih =>
    intro y h
    rcases List.mem_cons.mp h with h | h
    · simp [containsN, h]
    · simp [containsN, ih h]

/-- Number of elements of `l` that `p` keeps. -/
def keepCount (p : Nat → Bool) : List Nat → Nat
  | [] => 0
  | x :: xs => (if p x then 1 else 0) + keepCount p xs

/-- Number of valid thread indices not yet visited: the termination measure
of the alternating walk. -/
def unvisitedT (g : RAG) (visT : List Nat) : Nat :=
  keepCount (fun j => !containsN visT j) (List.range g.threads.length)

theorem keepCount_mono {p q : Nat → Bool} (himp : ∀ x, p x = true → q x = true) :
    ∀ l : List Nat, keepCount p l ≤ keepCount q l
  | [] => Nat.le_refl 0
  | x :: xs => by
      have h1 : (if p x then 1 else 0) ≤ (if q x then 1 else 0) := by
        by_cases hp : p x = true
        · rw [if_pos hp, if_pos (himp x hp)]
        · rw [if_neg hp]
          exact Nat.zero_le _
      exact Nat.add_le_add h1 (keepCount_mono himp xs)

theorem keepCount_decrease (i : Nat) (vis : List Nat) :
    ∀ l : List Nat, containsN l i = true → containsN vis i = false →
      keepCount (fun j => !containsN (i :: vis) j) l <
        keepCount (fun j => !containsN vis j) l
  | [], hl, _ => nomatch hl
  | x :: xs, hl, hv => by
      have hmono : ∀ j, (!containsN (i :: vis) j) = true → (!containsN vis j) = true := by
        intro j hj
        simp only [containsN, Bool.not_eq_true'] at hj
        rw [Bool.or_eq_false_iff] at hj
        simp [Bool.not_eq_true', hj.2]
      by_cases hx : x = i
      · subst hx
        have h1 : (!containsN (x :: vis) x) = false := by simp [containsN]
        have h2 : (!containsN vis x) = true := by rw [Bool.not_eq_true', hv]
        show (if (!containsN (x :: vis) x) then 1 else 0) +
            keepCount (fun j => !containsN (x :: vis) j) xs <
          (if (!containsN vis x) then 1 else 0) + keepCount (fun j => !containsN vis j) xs
        rw [if_neg (by rw [h1]; exact fun h => nomatch h), if_pos h2]
        have hm := keepCount_mono hmono xs
        omega
      · have hxl : containsN xs i = true := by
          simp only [containsN] at hl
          rw [beq_eq_false_iff_ne.mpr hx] at hl
          simpa using hl
        have hrec := keepCount_decrease i vis xs hxl hv
        have hhead : (!containsN (i :: vis) x) = (!containsN vis x) := by
          show (!((i == x) || containsN vis x)) = _
          rw [beq_eq_false_iff_ne.mpr (fun e => hx e.symm)]
          rfl
        show (if (!containsN (i :: vis) x) then 1 else 0) +
            keepCount (fun j => !containsN (i :: vis) j) xs <
          (if (!containsN vis x) then 1 else 0) + keepCount (fun j => !containsN vis j) xs
        rw [hhead]
        exact Nat.add_lt_add_left hrec _

theorem keepCount_nil_vis : ∀ l : List Nat, keepCount (fun j => !containsN [] j) l = l.length
  | [] => rfl
  | x :: xs => by
      show (if (!containsN [] x) then 1 else 0) +
        keepCount (fun j => !containsN [] j) xs = xs.length + 1
      rw [keepCount_nil_vis xs]
      simp [containsN, Nat.add_comm]

/-- Modelled from the spec's Cycle Detector contract: the depth-first walk
with explicit visited lists — start at the requesting thread; a visited
node means a cycle (true); follow the request edge (absence: false); a
visited resource means a cycle (true); follow the assignment edge (absence
terminates the chain: false); recurse.  The fuel argument only bounds the
recursion depth; `specWalk_stable` below shows any fuel above the number of
unvisited thread indices gives the same answer, so the walk is total. -/
def specWalk (g : RAG) (visT visR : List Nat) (cur : Option Nat) (fuel : Nat) : Bool :=
  match fuel, cur with
  | 0, _ => true
  | _ + 1, none => false
  | fuel + 1, some i =>
    match g.threads.get? i with
    | none => false
    | some tn =>
      if containsN visT i then true
      else
        match tn.request with
        | none => false
        | some r =>
          match g.resources.get? r with
          | none => false
          | some rn =>
            if containsN visR r then true
            else specWalk g (i :: visT) (r :: visR) rn.assignment fuel

theorem specWalk_stable : ∀ (fuel1 fuel2 : Nat) (g : RAG) (visT visR : List Nat)
    (cur : Option Nat), unvisitedT g visT < fuel1 → unvisitedT g visT < fuel2 →
    specWalk g visT visR cur fuel1 = specWalk g visT visR cur fuel2 := by
  intro fuel1
  induction fuel1 with
  | zero =>
    intro fuel2 g visT visR cur h1 _
    exact absurd h1 (Nat.not_lt_zero _)
  | succ f1 ih =>
    intro fuel2 g visT visR cur h1 h2
    cases fuel2 with
    | zero => exact absurd h2 (Nat.not_lt_zero _)
    | succ f2 =>
      cases cur with
      | none => rfl
      | some i =>
        cases hg : g.threads.get? i with
        | none =>
          have hg' : g.threads[i]? = none := by rw [← List.get?_eq_getElem?]; exact hg
          simp [specWalk, hg']
        | some tn =>
          have hg' : g.threads[i]? = some tn := by rw [← List.get?_eq_getElem?]; exact hg
          by_cases hvis : containsN visT i = true
          · simp [specWalk, hg', hvis]
          · have hvisf : containsN visT i = false := by
              revert hvis; cases (containsN visT i) <;> simp
            cases hreq : tn.request with
            | none => simp [specWalk, hg', hvisf, hreq]
            | some r =>
              cases hres : g.resources.get? r with
              | none =>
                have hres' : g.resources[r]? = none := by
                  rw [← List.get?_eq_getElem?]; exact hres
                simp [specWalk, hg', hvisf, hreq, hres']
              | some rn =>
                have hres' : g.resources[r]? = some rn := by
                  rw [← List.get?_eq_getElem?]; exact hres
                by_cases hrvis : containsN visR r = true
                · simp [specWalk, hg', hvisf, hreq, hres', hrvis]
                · have hrvisf : containsN visR r = false := by
                    revert hrvis; cases (containsN visR r) <;> simp
                  have hlt : unvisitedT g (i :: visT) < unvisitedT g visT := by
                    have hvalid : i < g.threads.length := get?_some_lt hg
                    have hin : containsN (List.range g.threads.length) i = true :=
                      containsN_true_of_mem (List.mem_range.mpr hvalid)
                    exact keepCount_decrease i visT (List.range g.threads.length) hin hvisf
                  have hrec := ih f2 g (i :: visT) (r :: visR) rn.assignment
                    (Nat.lt_of_lt_of_le hlt (Nat.le_of_lt_succ h1))
                    (Nat.lt_of_lt_of_le hlt (Nat.le_of_lt_succ h2))
                  simp [specWalk, hg', hvisf, hreq, hres', hrvisf, hrec]

/-- The marking graph `g` of the running depth-first search agrees with the
clean graph `g0` and the explicit visited lists: same persistent node data,
and a node's travelled flag is set exactly when its index is visited. -/
structure Agrees (g g0 : RAG) (visT visR : List Nat) : Prop where
  ht : ∀ i, Option.map treq (g.threads.get? i) = Option.map treq (g0.threads.get? i)
  htv : ∀ i tn, g.threads.get? i = some tn → tn.travelled = containsN visT i
  hre : ∀ r, Option.map rasg (g.resources.get? r) = Option.map rasg (g0.resources.get? r)
  hrv : ∀ r rn, g.resources.get? r = some rn → rn.travelled = containsN visR r

theorem agrees_step {g g0 : RAG} {visT visR : List Nat} {i r : Nat} {tn : ThreadNode}
    {rn : ResourceNode}
    (hA : Agrees g g0 visT visR)
    (hg : g.threads.get? i = some tn) (hr : g.resources.get? r = some rn) :
    Agrees ⟨g.threads.set i ⟨tn.tid, tn.request, true⟩,
            g.resources.set r ⟨rn.lockId, rn.assignment, true⟩⟩ g0 (i :: visT) (r :: visR) := by
  refine ⟨?_, ?_, ?_, ?_⟩
  · intro j
    show Option.map treq ((g.threads.set i ⟨tn.tid, tn.request, true⟩).get? j) = _
    by_cases hj : j = i
    · subst hj
      rw [get?_set_self g.threads j _ tn hg]
      have h0 := hA.ht j
      rw [hg] at h0
      simp only [Option.map_some'] at h0 ⊢
      exact h0
    · rw [get?_set_ne g.threads i j _ (fun e => hj e.symm)]
      exact hA.ht j
  · intro j tn' hget
    show tn'.travelled = containsN (i :: visT) j
    have hget2 : (g.threads.set i ⟨tn.tid, tn.request, true⟩).get? j = some tn' := hget
    by_cases hj : j = i
    · subst hj
      rw [get?_set_self g.threads j _ tn hg] at hget2
      have he : tn' = ⟨tn.tid, tn.request, true⟩ := (Option.some.inj hget2).symm
      rw [he]
      show true = containsN (j :: visT) j
      simp [containsN]
    · rw [get?_set_ne g.threads i j _ (fun e => hj e.symm)] at hget2
      rw [hA.htv j tn' hget2]
      have hij : (i == j) = false := beq_eq_false_iff_ne.mpr (fun e => hj e.symm)
      show containsN visT j = containsN (i :: visT) j
      simp [containsN, hij]
  · intro q
    show Option.map rasg ((g.resources.set r ⟨rn.lockId, rn.assignment, true⟩).get? q) = _
    by_cases hq : q = r
    · subst hq
      rw [get?_set_self g.resources q _ rn hr]
      have h0 := hA.hre q
      rw [hr] at h0
      simp only [Option.map_some'] at h0 ⊢
      exact h0
    · rw [get?_set_ne g.resources r q _ (fun e => hq e.symm)]
      exact hA.hre q
  · intro q rn' hget
    show rn'.travelled = containsN (r :: visR) q
    have hget2 : (g.resources.set r ⟨rn.lockId, rn.assignment, true⟩).get? q = some rn' := hget
    by_cases hq : q = r
    · subst hq
      rw [get?_set_self g.resources q _ rn hr] at hget2
      have he : rn' = ⟨rn.lockId, rn.assignment, true⟩ := (Option.some.inj hget2).symm
      rw [he]
      show true = containsN (q :: visR) q
      simp [containsN]
    · rw [get?_set_ne g.resources r q _ (fun e => hq e.symm)] at hget2
      rw [hA.hrv q rn' hget2]
      have hrq : (r == q) = false := beq_eq_false_iff_ne.mpr (fun e => hq e.symm)
      show containsN visR q = containsN (r :: visR) q
      simp [containsN, hrq]

theorem dfs_spec_bridge : ∀ (fuel : Nat) (g g0 : RAG) (visT visR : List Nat) (cur : Option Nat),
    Agrees g g0 visT visR →
    (rag_depthFirstSearch g cur fuel).1 = specWalk g0 visT visR cur fuel := by
  intro fuel
  induction fuel with
  | zero => intro g g0 visT visR cur hA; rfl
  | succ fuel ih =>
    intro g g0 visT visR cur hA
    cases cur with
    | none => rfl
    | some i =>
      have hti := hA.ht i
      cases hg : g.threads.get? i with
      | none =>
        have hg0 : g0.threads.get? i = none := by
          rw [hg] at hti
          cases hq : g0.threads.get? i with
          | none => rfl
          | some y => rw [hq] at hti; exact nomatch hti
        have hg' : g.threads[i]? = none := by rw [← List.get?_eq_getElem?]; exact hg
        have hg0' : g0.threads[i]? = none := by rw [← List.get?_eq_getElem?]; exact hg0
        simp [rag_depthFirstSearch, specWalk, hg', hg0']
      | some tn =>
        rw [hg] at hti
        obtain ⟨tn0, hg0, htid0, hreq0⟩ : ∃ tn0, g0.threads.get? i = some tn0 ∧
            tn.tid = tn0.tid ∧ tn.request = tn0.request := by
          cases hq : g0.threads.get? i with
          | none => rw [hq] at hti; exact nomatch hti
          | some y =>
            rw [hq] at hti
            simp only [Option.map_some'] at hti
            have h2 : treq tn = treq y := Option.some.inj hti
            simp only [treq, Prod.mk.injEq] at h2
            exact ⟨y, rfl, h2.1, h2.2⟩
        have hg' : g.threads[i]? = some tn := by rw [← List.get?_eq_getElem?]; exact hg
        have hg0' : g0.threads[i]? = some tn0 := by rw [← List.get?_eq_getElem?]; exact hg0
        have htrav := hA.htv i tn hg
        by_cases hvis : containsN visT i = true
        · have htt : tn.travelled = true := by rw [htrav, hvis]
          simp [rag_depthFirstSearch, specWalk, hg', hg0', htt, hvis]
        · have hvisf : containsN visT i = false := by
            revert hvis; cases (containsN visT i) <;> simp
          have htt : tn.travelled = false := by rw [htrav, hvisf]
          cases hreq : tn.request with
          | none =>
            have hreq0' : tn0.request = none := by rw [← hreq0]; exact hreq
            simp [rag_depthFirstSearch, specWalk, hg', hg0', htt, hvisf, hreq, hreq0']
          | some r =>
            have hreq0' : tn0.request = some r := by rw [← hreq0]; exact hreq
            have hri := hA.hre r
            cases hr : g.resources.get? r with
            | none =>
              have hr0 : g0.resources.get? r = none := by
                rw [hr] at hri
                cases hq : g0.resources.get? r with
                | none => rfl
                | some y => rw [hq] at hri; exact nomatch hri
              have hr' : g.resources[r]? = none := by rw [← List.get?_eq_getElem?]; exact hr
              have hr0' : g0.resources[r]? = none := by rw [← List.get?_eq_getElem?]; exact hr0
              simp [rag_depthFirstSearch, specWalk, hg', hg0', htt, hvisf, hreq, hreq0',
                hr', hr0']
            | some rn =>
              rw [hr] at hri
              obtain ⟨rn0, hr0, hlid0, hasg0⟩ : ∃ rn0, g0.resources.get? r = some rn0 ∧
                  rn.lockId = rn0.lockId ∧ rn.assignment = rn0.assignment := by
                cases hq : g0.resources.get? r with
                | none => rw [hq] at hri; exact nomatch hri
                | some y =>
                  rw [hq] at hri
                  simp only [Option.map_some'] at hri
                  have h2 : rasg rn = rasg y := Option.some.inj hri
                  simp only [rasg, Prod.mk.injEq] at h2
                  exact ⟨y, rfl, h2.1, h2.2⟩
              have hr' : g.resources[r]? = some rn := by rw [← List.get?_eq_getElem?]; exact hr
              have hr0' : g0.resources[r]? = some rn0 := by rw [← List.get?_eq_getElem?]; exact hr0
              have hrtrav := hA.hrv r rn hr
              by_cases hrvis : containsN visR r = true
              · have hrt : rn.travelled = true := by rw [hrtrav, hrvis]
                simp [rag_depthFirstSearch, specWalk, hg', hg0', htt, hvisf, hreq, hreq0',
                  hr', hr0', hrt, hrvis]
              · have hrvisf : containsN visR r = false := by
                  revert hrvis; cases (containsN visR r) <;> simp
                have hrt : rn.travelled = false := by rw [hrtrav, hrvisf]
                have hA2 := agrees_step hA hg hr
                have hrec := ih _ g0 (i :: visT) (r :: visR) rn.assignment hA2
                rw [hasg0, hreq] at hrec
                simp [rag_depthFirstSearch, specWalk, hg', hg0', htt, hvisf, hreq, hreq0',
                  hr', hr0', hrt, hrvisf, hasg0, hrec]

theorem clean_travelled_get? {g : RAG} (h : cleanTravelled g = true) :
    (∀ i tn, g.threads.get? i = some tn → tn.travelled = false) ∧
    (∀ r rn, g.resources.get? r = some rn → rn.travelled = false) := by
  simp only [cleanTravelled, Bool.and_eq_true, List.all_eq_true] at h
  constructor
  · intro i tn hget
    have h2 := h.1 tn (mem_of_get? hget)
    revert h2; cases tn.travelled <;> simp
  · intro r rn hget
    have h2 := h.2 rn (mem_of_get? hget)
    revert h2; cases rn.travelled <;> simp

theorem agrees_clean {g : RAG} (h : cleanTravelled g = true) : Agrees g g [] [] := by
  obtain ⟨h1, h2⟩ := clean_travelled_get? h
  exact ⟨fun i => rfl, fun i tn hget => h1 i tn hget, fun r => rfl,
    fun r rn hget => h2 r rn hget⟩

/-- Modelled from the spec's Cycle Detector contract: would the tentatively
set request edge complete a cycle — the alternating walk with explicit
visited lists, started from the requesting thread's node. -/
def specCycleCheck (g : RAG) (tid : Nat) : Bool :=
  specWalk g [] [] (Option.map (fun q => q.1) (rag_getThread g tid)) (g.threads.length + 1)

/-- Claim C2: for a graph whose travelled markers are all clear (as in every
reachable state), rag_checkForCycles returns exactly what the
specification's walk computes: true iff following alternating
request/assignment edges from the requesting thread revisits an
already-visited node, and false when a thread on the path has no request
edge or a resource on the path no assignment edge.  Both walks are
functions, hence deterministic single paths; the second conjunct shows the
answer does not depend on the fuel bound, so the comparison has no fuel
artifact. -/
theorem C2_check_matches_spec (tid : Nat) (g : RAG) (hclean : cleanTravelled g = true) :
    (rag_checkForCycles tid g).1 = specCycleCheck g tid ∧
    (∀ k, specWalk g [] [] (Option.map (fun q => q.1) (rag_getThread g tid))
        (g.threads.length + 1 + k) = specCycleCheck g tid) := by
  constructor
  · exact dfs_spec_bridge (g.threads.length + 1) g g [] []
      (Option.map (fun q => q.1) (rag_getThread g tid)) (agrees_clean hclean)
  · intro k
    have hb : unvisitedT g [] < g.threads.length + 1 := by
      unfold unvisitedT
      rw [keepCount_nil_vis, List.length_range]
      exact Nat.lt_succ_self _
    exact specWalk_stable (g.threads.length + 1 + k) (g.threads.length + 1) g [] [] _
      (by omega) hb

theorem C2_witness :
    cleanTravelled (⟨[⟨5, some 0, false⟩], [⟨9, some 0, false⟩]⟩ : RAG) = true ∧
    (rag_checkForCycles 5 (⟨[⟨5, some 0, false⟩], [⟨9, some 0, false⟩]⟩ : RAG)).1 =
      specCycleCheck (⟨[⟨5, some 0, false⟩], [⟨9, some 0, false⟩]⟩ : RAG) 5 ∧
    specCycleCheck (⟨[⟨5, some 0, false⟩], [⟨9, some 0, false⟩]⟩ : RAG) 5 = true :=
  ⟨rfl, (C2_check_matches_spec 5 (⟨[⟨5, some 0, false⟩], [⟨9, some 0, false⟩]⟩ : RAG) rfl).1, rfl⟩
